import Mathlib

/-!
Verification of bump_version: parsing, bumping and rendering of version strings

A shallow embedding of `main.go` (package `main`) together with the parts of
the Go standard library it calls (`strings.SplitN`, `strings.Replace`,
`strconv.ParseInt`, `fmt.Sprintf("%d")`).

Conventions of the embedding:

* a Go `string` is a `List Char`; every character the program inspects
  (`.`, `-`, `"`, `+`, the digits) is ASCII, so scanning code points and
  scanning UTF-8 bytes agree;
* an `int64` is an `Int` kept in range by `wrapInt64`, a `uint64` is a `Nat`
  kept in range by `% 2^64`;
* a Go result pair `(*Version, error)` is an `Except Error Version`.
-/

namespace BumpVersion

/-- A Go string, as the list of its characters. -/
abbrev GoString := List Char

/-! ## Machine integers -/

/-- Two's complement reading of an integer as an `int64`. -/
def wrapInt64 (x : Int) : Int := (x + 2 ^ 63) % 2 ^ 64 - 2 ^ 63

/-- The largest `int64`. -/
def maxInt64 : Int := 2 ^ 63 - 1

/-- The smallest `int64`. -/
def minInt64 : Int := -(2 ^ 63)

/-! ## Errors -/

/-- The two sentinel errors of package `strconv` that `ParseInt` can wrap. -/
inductive NumErr where
  | ErrSyntax
  | ErrRange
  deriving DecidableEq, Repr

/-- The error values the program can produce. -/
inductive Error where
  /-- Result of `errors.New("Empty version string")`. -/
  | emptyVersion
  /-- A `*strconv.NumError` of function `ParseInt` for the input `num`. -/
  | numError (num : GoString) (err : NumErr)
  /-- Result of `fmt.Errorf("Invalid version string: %s", version)`. -/
  | invalidVersionString (version : GoString)
  /-- Result of `fmt.Errorf("Invalid version type: %s", vtype)`. -/
  | invalidVersionType (vtype : GoString)
  /-- An error of `os.ReadFile`, with its message. -/
  | readFile (msg : GoString)
  deriving DecidableEq, Repr

deriving instance DecidableEq for Except

/-- Text of a `strconv` sentinel error. -/
def NumErr.Error : NumErr → GoString
  | .ErrSyntax => "invalid syntax".data
  | .ErrRange => "value out of range".data

set_option linter.dupNamespace false in
/-- The method `Error()` of an error value. `strconv.Quote`, used by
`*strconv.NumError`, is taken as the parameter `quote`. -/
def Error.Error (quote : GoString → GoString) : Error → GoString
  | .emptyVersion => "Empty version string".data
  | .numError num err =>
      "strconv.ParseInt: parsing ".data ++ quote num ++ ": ".data ++ err.Error
  | .invalidVersionString version => "Invalid version string: ".data ++ version
  | .invalidVersionType vtype => "Invalid version type: ".data ++ vtype
  | .readFile msg => msg

/-! ## Package `strings` -/

namespace strings

/-- Go `strings.Index(s, sep)` for a one-character separator: position of the
first occurrence, `none` for Go's `-1`. -/
def Index (sep : Char) : GoString → Option Nat
  | [] => none
  | x :: xs => if x = sep then some 0 else (Index sep xs).map (· + 1)

/-- The loop of `strings.genSplit`: at most `k` cuts at `sep`, the rest of
the string is the last element. -/
def genSplitLoop (sep : Char) : Nat → GoString → List GoString
  | 0, s => [s]
  | k + 1, s =>
    match Index sep s with
    | none => [s]
    | some m => s.take m :: genSplitLoop sep k (s.drop (m + 1))

/-- Go `strings.SplitN(s, sep, n)` for a one-character separator and `n ≥ 0`:
`n = 0` gives no parts, a count above `len(s) + 1` is lowered to it, then the
string is cut at most `n - 1` times. -/
def SplitN (s : GoString) (sep : Char) (n : Nat) : List GoString :=
  if n = 0 then []
  else
    let n1 := if n > s.length + 1 then s.length + 1 else n
    genSplitLoop sep (n1 - 1) s

/-- Go `strings.Replace(s, old, "", -1)` for a one-character `old`: every
occurrence of the character is removed. -/
def Replace (s : GoString) (old : Char) : GoString :=
  s.filter (fun c => !(c == old))

end strings

/-! ## Package `strconv` -/

namespace strconv

/-- Constant `maxUint64/10 + 1`, the smallest `n` with `n * 10 > maxUint64`. -/
def cutoff10 : Nat := (2 ^ 64 - 1) / 10 + 1

/-- Largest value of a `uint64`. -/
def maxVal : Nat := 2 ^ 64 - 1

/-- Whether a character is one of `0` … `9`. -/
def isDigit (c : Char) : Bool := decide ('0'.toNat ≤ c.toNat) && decide (c.toNat ≤ '9'.toNat)

/-- The digit loop of `strconv.ParseUint(s, 10, 64)`: the value read so far
is `n`. A character that is not a decimal digit (a letter has a digit value
of at least the base) is a syntax error; an overflow of `n * 10` or of
`n * 10 + d` returns `maxVal` with a range error. -/
def ParseUintLoop : GoString → Nat → Nat × Option NumErr
  | [], n => (n, none)
  | c :: cs, n =>
    if isDigit c then
      let d := c.toNat - '0'.toNat
      if n ≥ cutoff10 then (maxVal, some .ErrRange)
      else
        let n10 := (n * 10) % 2 ^ 64
        let n1 := (n10 + d) % 2 ^ 64
        if n1 < n10 ∨ n1 > maxVal then (maxVal, some .ErrRange)
        else ParseUintLoop cs n1
    else (0, some .ErrSyntax)

/-- Go `strconv.ParseUint(s, 10, 64)`: value and error (if any). -/
def ParseUint (s : GoString) : Nat × Option NumErr :=
  match s with
  | [] => (0, some .ErrSyntax)
  | _ => ParseUintLoop s 0

/-- Go `strconv.ParseInt(s, 10, 64)`: an optional sign, then `ParseUint`, then
the range check against `2^63`. -/
def ParseInt (s : GoString) : Except Error Int :=
  match s with
  | [] => .error (.numError s .ErrSyntax)
  | c0 :: rest =>
    let neg := c0 == '-'
    let s1 := if c0 == '+' then rest else if c0 == '-' then rest else s
    let r := ParseUint s1
    if r.2 = some .ErrSyntax then .error (.numError s .ErrSyntax)
    else
      let cutoff : Nat := 2 ^ 63
      if !neg && decide (r.1 ≥ cutoff) then .error (.numError s .ErrRange)
      else if neg && decide (r.1 > cutoff) then .error (.numError s .ErrRange)
      else
        let n := wrapInt64 r.1
        .ok (if neg then wrapInt64 (-n) else n)

/-- The digit `d < 10` as a character. -/
def digitChar (d : Nat) : Char := Char.ofNat ('0'.toNat + d)

/-- The loop of `strconv.formatBits` in base 10: digits are produced from the
least significant one and put in front of `acc`. -/
def formatBits : Nat → Nat → GoString → GoString
  | 0, _, acc => acc
  | fuel + 1, u, acc =>
    if u ≥ 10 then formatBits fuel (u / 10) (digitChar (u % 10) :: acc)
    else digitChar u :: acc

/-- Decimal text of a natural number (`strconv.FormatUint(u, 10)`); the loop
runs at most once per unit of `u + 1`. -/
def FormatUint (u : Nat) : GoString := formatBits (u + 1) u []

/-- Decimal text of an integer (`strconv.FormatInt(i, 10)`, the verb `%d`). -/
def FormatInt (i : Int) : GoString :=
  if i < 0 then '-' :: FormatUint i.natAbs else FormatUint i.natAbs

end strconv

/-! ## `main.go` -/

/-- The type `VersionType`, a string. -/
abbrev VersionType := GoString

/-- Constant `const Major = VersionType("major")`. -/
def Major : VersionType := "major".data

/-- Constant `const Minor = VersionType("minor")`. -/
def Minor : VersionType := "minor".data

/-- Constant `const Patch = VersionType("patch")`. -/
def Patch : VersionType := "patch".data

/-- The struct `Version`; the fields are `int64`. -/
structure Version where
  Major : Int
  Minor : Int
  Patch : Int
  deriving DecidableEq, Repr

/-- The method `(*Version).String`. -/
def Version.String (v : Version) : GoString :=
  if v.Major ≥ 0 ∧ v.Minor ≥ 0 ∧ v.Patch ≥ 0 then
    strconv.FormatInt v.Major ++ '.' :: strconv.FormatInt v.Minor
      ++ '.' :: strconv.FormatInt v.Patch
  else if v.Major ≥ 0 ∧ v.Minor ≥ 0 then
    strconv.FormatInt v.Major ++ '.' :: strconv.FormatInt v.Minor
  else if v.Major ≥ 0 then
    strconv.FormatInt v.Major
  else
    "%!s(INVALID_VERSION)".data

/-- The function `Parse`. -/
def Parse (version : GoString) : Except Error Version :=
  if version.length = 0 then .error .emptyVersion
  else
    match strings.SplitN version '.' 3 with
    | [p0] =>
      match strconv.ParseInt p0 with
      | .error err => .error err
      | .ok major => .ok { Major := major, Minor := -1, Patch := -1 }
    | [p0, p1] =>
      match strconv.ParseInt p0 with
      | .error err => .error err
      | .ok major =>
        match strconv.ParseInt p1 with
        | .error err => .error err
        | .ok minor => .ok { Major := major, Minor := minor, Patch := -1 }
    | [p0, p1, p2] =>
      match strconv.ParseInt p0 with
      | .error err => .error err
      | .ok major =>
        match strconv.ParseInt p1 with
        | .error err => .error err
        | .ok minor =>
          let patchParts := strings.SplitN p2 '-' 2
          match strconv.ParseInt (patchParts.headD []) with
          | .error err => .error err
          | .ok patch => .ok { Major := major, Minor := minor, Patch := patch }
    | _ => .error (.invalidVersionString version)

/-- The function `changeVersion`; `++` on an `int64` wraps. -/
def changeVersion (vtype : VersionType) (value : GoString) : Except Error Version :=
  let versionNoQuotes := strings.Replace value '"'
  match Parse versionNoQuotes with
  | .error err => .error err
  | .ok version =>
    if vtype = Major then
      let version := { version with Major := wrapInt64 (version.Major + 1) }
      let version := if version.Minor ≠ -1 then { version with Minor := 0 } else version
      let version := if version.Patch ≠ -1 then { version with Patch := 0 } else version
      .ok version
    else if vtype = Minor then
      let version := if version.Minor = -1 then { version with Minor := 0 } else version
      let version := if version.Patch ≠ -1 then { version with Patch := 0 } else version
      let version := { version with Minor := wrapInt64 (version.Minor + 1) }
      .ok version
    else if vtype = Patch then
      let version := if version.Patch = -1 then { version with Patch := 0 } else version
      let version := { version with Patch := wrapInt64 (version.Patch + 1) }
      .ok version
    else .error (.invalidVersionType vtype)

/-! ## Notions used by the specification -/

namespace Spec

/-- One step of reading a decimal number: the value `n` read so far, followed
by the digit character `c`. -/
def pushDigit (n : Nat) (c : Char) : Nat := n * 10 + (c.toNat - '0'.toNat)

/-- Whether every character of the string is a decimal digit. -/
def allDigits (s : GoString) : Bool := s.all strconv.isDigit

/-- Value of a string of decimal digits, most significant digit first. -/
def decVal (s : GoString) : Nat := s.foldl pushDigit 0

/-- Canonical decimal of a natural number: digits only, at least one, no sign
and no leading zero (the text `0` itself is canonical). -/
def isCanonical (s : GoString) : Bool :=
  match s with
  | [] => false
  | [c] => strconv.isDigit c
  | c :: cs => allDigits (c :: cs) && !(c == '0')

/-- Valid base-10 signed 64-bit integer literal: an optional sign `+` or `-`,
then at least one decimal digit and nothing else, with a value in the range
`-2^63 … 2^63 - 1`. -/
def isInt64Literal (s : GoString) : Bool :=
  match s with
  | [] => false
  | c :: cs =>
    if c = '-' then !cs.isEmpty && allDigits cs && decide (decVal cs ≤ 2 ^ 63)
    else if c = '+' then !cs.isEmpty && allDigits cs && decide (decVal cs < 2 ^ 63)
    else allDigits (c :: cs) && decide (decVal (c :: cs) < 2 ^ 63)

/-- Value of an integer literal. -/
def litValue (s : GoString) : Int :=
  match s with
  | [] => 0
  | c :: cs =>
    if c = '-' then -(decVal cs : Int)
    else if c = '+' then (decVal cs : Int)
    else (decVal (c :: cs) : Int)

end Spec

namespace strconv

/-- The part of `ParseInt` that follows the call of `ParseUint`, as a function
of the sign `neg`, the input `s` and the pair `r` that `ParseUint` returned. -/
def parseIntFinish (neg : Bool) (s : GoString) (r : Nat × Option NumErr) : Except Error Int :=
  if r.2 = some .ErrSyntax then .error (.numError s .ErrSyntax)
  else
    let cutoff : Nat := 2 ^ 63
    if !neg && decide (r.1 ≥ cutoff) then .error (.numError s .ErrRange)
    else if neg && decide (r.1 > cutoff) then .error (.numError s .ErrRange)
    else
      let n := wrapInt64 r.1
      .ok (if neg then wrapInt64 (-n) else n)

end strconv

namespace Spec

/-- Text before the first occurrence of `c`; the whole text when `c` does not
occur. -/
def before (c : Char) (s : GoString) : GoString := s.takeWhile (fun x => !(x == c))

/-- Text after the first occurrence of `c`; empty when `c` does not occur. -/
def after (c : Char) (s : GoString) : GoString := (s.dropWhile (fun x => !(x == c))).drop 1

/-- The segments of a version text: the text is split at `.` into at most
three parts, everything after the second `.` being the third part, and the
third part is cut off at its first `-`. -/
def segments (s : GoString) : List GoString :=
  if '.' ∈ s then
    if '.' ∈ after '.' s then
      [before '.' s, before '.' (after '.' s), before '-' (after '.' (after '.' s))]
    else [before '.' s, after '.' s]
  else [s]

/-- The version that the segments denote: the value of each segment, and `-1`
for a segment that is not there. -/
def versionOfSegments (segs : List GoString) : Version :=
  { Major := litValue (segs.getD 0 [])
    Minor := if 1 < segs.length then litValue (segs.getD 1 []) else -1
    Patch := if 2 < segs.length then litValue (segs.getD 2 []) else -1 }

end Spec

/-! ## Package `unicode`, `strings.TrimSpace` and the file read -/

namespace unicode

/-- Go `unicode.IsSpace`: the white space of Latin-1 (tab, line feed, vertical
tab, form feed, carriage return, space, U+0085, U+00A0) and the characters
with the Unicode property White_Space outside it. -/
def IsSpace (c : Char) : Bool :=
  let n := c.toNat
  n == 0x09 || n == 0x0A || n == 0x0B || n == 0x0C || n == 0x0D || n == 0x20 ||
  n == 0x85 || n == 0xA0 || n == 0x1680 || (decide (0x2000 ≤ n) && decide (n ≤ 0x200A)) ||
  n == 0x2028 || n == 0x2029 || n == 0x202F || n == 0x205F || n == 0x3000

end unicode

namespace strings

/-- Go `strings.TrimSpace(s)`: the text without its leading and its trailing
white space. -/
def TrimSpace (s : GoString) : GoString :=
  (((s.dropWhile unicode.IsSpace).reverse).dropWhile unicode.IsSpace).reverse

end strings

/-- Constant `const VERSION_FILE_LOCATION = "VERSION"`. -/
def VERSION_FILE_LOCATION : GoString := "VERSION".data

/-- The files as `os.ReadFile` sees them: for each path the content of the
file, or the error of the read. -/
abbrev Files := GoString → Except Error GoString

/-- The function `changeVersionInFile`. -/
def changeVersionInFile (files : Files) (vType : VersionType) : Except Error Version :=
  match files VERSION_FILE_LOCATION with
  | .error err => .error err
  | .ok fileContent => changeVersion vType (strings.TrimSpace fileContent)

/-- What the program has written to standard output and to standard error. -/
structure Streams where
  stdout : GoString
  stderr : GoString
  deriving DecidableEq, Repr

/-- The function `handleResult`: it runs `fn`, then writes the message of the
error to standard error, or else the rendered version to standard output. -/
def handleResult (quote : GoString → GoString) (fn : Unit → Except Error Version)
    (o : Streams) : Streams :=
  match fn () with
  | .error err => { o with stderr := o.stderr ++ Error.Error quote err }
  | .ok v => { o with stdout := o.stdout ++ v.String }

/-- The function `main` on the command line arguments `args`. -/
def main (quote : GoString → GoString) (files : Files) (args : List GoString)
    (o : Streams) : Streams :=
  match args with
  | [bumpType] => handleResult quote (fun _ => changeVersionInFile files bumpType) o
  | [bumpType, version] => handleResult quote (fun _ => changeVersion bumpType version) o
  | _ => { o with stdout := o.stdout ++ "Usage: go run <VERSION> <major|minor|patch>".data }

namespace Spec

/-- The order of the fields: an absent minor (`-1`) comes with an absent patch. -/
def fieldOrder (v : Version) : Prop := v.Minor = -1 → v.Patch = -1

instance (v : Version) : Decidable (fieldOrder v) := by
  unfold fieldOrder
  exact inferInstance

/-- The field that a bump type increments (the patch for `patch`). -/
def bumpedField (f : VersionType) (v : Version) : Int :=
  if f = Major then v.Major else if f = Minor then v.Minor else v.Patch

/-- A field that is absent (`-1`) or a number in `[0, 2^63)`. -/
def isField (x : Int) : Prop := x = -1 ∨ (0 ≤ x ∧ x < 2 ^ 63)

/-- Well-formed version: the major in `[0, 2^63)`, the minor and the patch
absent or in `[0, 2^63)`, and no patch without a minor. -/
def wellFormed (v : Version) : Prop :=
  (0 ≤ v.Major ∧ v.Major < 2 ^ 63) ∧ isField v.Minor ∧ isField v.Patch ∧ fieldOrder v

end Spec

/-! ## Splitting: facts about `strings.SplitN` -/

namespace strings

theorem Index_eq_none {sep : Char} {s : GoString} (h : sep ∉ s) : Index sep s = none := by
  induction s with
  | nil => rfl
  | cons x xs ih =>
    have hx : x ≠ sep := fun e => h (by simp [e])
    have hxs : sep ∉ xs := fun e => h (by simp [e])
    simp [Index, hx, ih hxs]

theorem Index_append {sep : Char} {p : GoString} (r : GoString) (h : sep ∉ p) :
    Index sep (p ++ sep :: r) = some p.length := by
  induction p with
  | nil => simp [Index]
  | cons x xs ih =>
    have hx : x ≠ sep := fun e => h (by simp [e])
    have hxs : sep ∉ xs := fun e => h (by simp [e])
    simp [Index, hx, ih hxs]

/-- Every string either lacks the separator or splits at its first occurrence. -/
theorem first_occurrence (sep : Char) (s : GoString) :
    sep ∉ s ∨ ∃ p r, s = p ++ sep :: r ∧ sep ∉ p := by
  induction s with
  | nil => left; simp
  | cons x xs ih =>
    by_cases hx : x = sep
    · right; exact ⟨[], xs, by simp [hx], by simp⟩
    · rcases ih with h | ⟨p, r, hs, hp⟩
      · left; simp [h, Ne.symm hx]
      · right; exact ⟨x :: p, r, by simp [hs], by simp [hp, Ne.symm hx]⟩

theorem genSplitLoop_of_not_mem {sep : Char} {s : GoString} (k : Nat) (h : sep ∉ s) :
    genSplitLoop sep k s = [s] := by
  cases k with
  | zero => rfl
  | succ k => simp [genSplitLoop, Index_eq_none h]

theorem genSplitLoop_append {sep : Char} {p : GoString} (k : Nat) (r : GoString)
    (h : sep ∉ p) :
    genSplitLoop sep (k + 1) (p ++ sep :: r) = p :: genSplitLoop sep k r := by
  simp [genSplitLoop, Index_append r h]

theorem genSplitLoop_succ {sep : Char} (k : Nat) :
    ∀ s : GoString, s.length ≤ k → genSplitLoop sep (k + 1) s = genSplitLoop sep k s := by
  induction k with
  | zero =>
    intro s hs
    have : s = [] := List.length_eq_zero.mp (Nat.le_zero.mp hs)
    subst this
    simp [genSplitLoop, Index]
  | succ k ih =>
    intro s hs
    rcases first_occurrence sep s with h | ⟨p, r, rfl, hp⟩
    · rw [genSplitLoop_of_not_mem _ h, genSplitLoop_of_not_mem _ h]
    · rw [genSplitLoop_append _ _ hp, genSplitLoop_append _ _ hp, ih]
      simp at hs; omega

theorem genSplitLoop_of_length_le {sep : Char} (s : GoString) :
    ∀ k j : Nat, s.length ≤ k → genSplitLoop sep (k + j) s = genSplitLoop sep k s := by
  intro k j hk
  induction j with
  | zero => rfl
  | succ j ih => rw [← Nat.add_assoc, genSplitLoop_succ _ _ (by omega), ih]

/-- Lowering the count to `len(s) + 1` does not change the parts. -/
theorem SplitN_eq (s : GoString) (sep : Char) (n : Nat) :
    SplitN s sep (n + 1) = genSplitLoop sep n s := by
  unfold SplitN
  simp only [Nat.add_one_ne_zero, if_false]
  by_cases h : n + 1 > s.length + 1
  · simp only [h, if_true, Nat.add_sub_cancel]
    obtain ⟨j, rfl⟩ : ∃ j, n = s.length + j := ⟨n - s.length, by omega⟩
    exact (genSplitLoop_of_length_le s _ j (Nat.le_refl _)).symm
  · simp only [h, if_false, Nat.add_sub_cancel]

end strings

/-! ## Numbers: facts about `strconv.ParseInt` and `strconv.FormatInt` -/

namespace strconv
open Spec

theorem isDigit_iff (c : Char) : isDigit c = true ↔ 48 ≤ c.toNat ∧ c.toNat ≤ 57 := by
  simp [isDigit]

theorem le_foldl_pushDigit (cs : GoString) : ∀ n : Nat, n ≤ cs.foldl pushDigit n := by
  induction cs with
  | nil => intro n; exact Nat.le_refl _
  | cons c cs ih =>
    intro n
    simp only [List.foldl_cons]
    exact Nat.le_trans (by unfold pushDigit; omega) (ih _)

/-- What the digit loop returns: the value when the text is digits only and
the value fits 64 bits, and an error otherwise. -/
theorem ParseUintLoop_spec (cs : GoString) : ∀ n : Nat, n < 2 ^ 64 →
    (allDigits cs = true ∧ cs.foldl pushDigit n < 2 ^ 64 →
      ParseUintLoop cs n = (cs.foldl pushDigit n, none)) ∧
    (¬ (allDigits cs = true ∧ cs.foldl pushDigit n < 2 ^ 64) →
      ParseUintLoop cs n = (maxVal, some .ErrRange) ∨
      (ParseUintLoop cs n).2 = some .ErrSyntax) := by
  induction cs with
  | nil =>
    intro n hn64
    refine ⟨fun _ => rfl, fun h => ?_⟩
    exact absurd ⟨by simp [allDigits], by simpa using hn64⟩ h
  | cons c cs ih =>
    intro n _
    by_cases hc : isDigit c = true
    · have hd := (isDigit_iff c).mp hc
      have hmono := le_foldl_pushDigit cs (pushDigit n c)
      have hall : allDigits (c :: cs) = allDigits cs := by simp [allDigits, hc]
      by_cases hn : n ≥ cutoff10
      · have hbig : ¬ (List.foldl pushDigit n (c :: cs) < 2 ^ 64) := by
          simp only [List.foldl_cons]
          unfold pushDigit at hmono ⊢
          unfold cutoff10 at hn
          norm_num at hn ⊢
          omega
        refine ⟨fun h => absurd h.2 hbig, fun _ => ?_⟩
        left
        simp [ParseUintLoop, hc, hn]
      · by_cases hov : n * 10 + (c.toNat - 48) < 2 ^ 64
        · have hstep : ParseUintLoop (c :: cs) n = ParseUintLoop cs (pushDigit n c) := by
            have h1 : n * 10 % 2 ^ 64 = n * 10 := Nat.mod_eq_of_lt (by omega)
            have h2 : (n * 10 + (c.toNat - 48)) % 2 ^ 64 = n * 10 + (c.toNat - 48) :=
              Nat.mod_eq_of_lt hov
            have h3 : ¬ (n * 10 + (c.toNat - 48) < n * 10 ∨
                n * 10 + (c.toNat - 48) > maxVal) := by
              unfold maxVal; omega
            simp only [ParseUintLoop, hc, hn, if_true, if_false, Char.reduceToNat, h1, h2, h3,
              pushDigit]
          rw [hstep, hall]
          exact ih (pushDigit n c) (by unfold pushDigit; simpa using hov)
        · have hbig : ¬ (List.foldl pushDigit n (c :: cs) < 2 ^ 64) := by
            simp only [List.foldl_cons]
            unfold pushDigit at hmono ⊢
            simp only [Char.reduceToNat] at hmono ⊢
            omega
          refine ⟨fun h => absurd h.2 hbig, fun _ => ?_⟩
          left
          unfold cutoff10 at hn
          norm_num at hn
          have h1 : n * 10 % 2 ^ 64 = n * 10 := Nat.mod_eq_of_lt (by omega)
          have h3 : (n * 10 + (c.toNat - 48)) % 2 ^ 64 < n * 10 := by omega
          simp only [ParseUintLoop, hc, if_true, Char.reduceToNat, h1]
          rw [if_neg (by unfold cutoff10; norm_num; omega), if_pos (Or.inl h3)]
    · have hall : allDigits (c :: cs) = false := by
        simp [allDigits]
        intro h; exact absurd h hc
      refine ⟨fun h => ?_, fun _ => ?_⟩
      · rw [hall] at h; exact absurd h.1 (by simp)
      · right
        simp [ParseUintLoop, hc]
theorem ParseUint_ok {s : GoString} (hne : s ≠ []) (hd : allDigits s = true)
    (hv : decVal s < 2 ^ 64) : ParseUint s = (decVal s, none) := by
  cases s with
  | nil => exact absurd rfl hne
  | cons c cs => exact ((ParseUintLoop_spec (c :: cs) 0 (by norm_num)).1 ⟨hd, hv⟩)

theorem ParseUint_bad {s : GoString} (h : ¬ (s ≠ [] ∧ allDigits s = true ∧ decVal s < 2 ^ 64)) :
    ParseUint s = (maxVal, some .ErrRange) ∨ (ParseUint s).2 = some .ErrSyntax := by
  cases s with
  | nil => right; rfl
  | cons c cs =>
    exact (ParseUintLoop_spec (c :: cs) 0 (by norm_num)).2
      (fun hh => h ⟨by simp, hh.1, hh.2⟩)

theorem wrapInt64_of_lt {n : Nat} (h : n < 2 ^ 63) : wrapInt64 (n : Int) = n := by
  unfold wrapInt64; norm_num at h ⊢; omega

theorem wrapInt64_neg_wrap {n : Nat} (h : n ≤ 2 ^ 63) :
    wrapInt64 (-(wrapInt64 (n : Int))) = -(n : Int) := by
  unfold wrapInt64; norm_num at h ⊢; omega

theorem ParseInt_cons (c : Char) (cs : GoString) :
    ParseInt (c :: cs) = parseIntFinish (c == '-') (c :: cs)
      (ParseUint (if c == '+' then cs else if c == '-' then cs else c :: cs)) := rfl

theorem parseIntFinish_pos {s : GoString} {v : Nat} (h : v < 2 ^ 63) :
    parseIntFinish false s (v, none) = .ok (v : Int) := by
  have h1 : v < 9223372036854775808 := by norm_num at h; exact h
  simp [parseIntFinish, h1, wrapInt64_of_lt h]

theorem parseIntFinish_neg {s : GoString} {v : Nat} (h : v ≤ 2 ^ 63) :
    parseIntFinish true s (v, none) = .ok (-(v : Int)) := by
  have h1 : v ≤ 9223372036854775808 := by norm_num at h; exact h
  simp [parseIntFinish, h1, wrapInt64_neg_wrap h]

theorem parseIntFinish_pos_range {s : GoString} {v : Nat} (h : 2 ^ 63 ≤ v) :
    parseIntFinish false s (v, none) = .error (.numError s .ErrRange) := by
  have h1 : 9223372036854775808 ≤ v := by norm_num at h; exact h
  simp [parseIntFinish, h1]

theorem parseIntFinish_neg_range {s : GoString} {v : Nat} (h : 2 ^ 63 < v) :
    parseIntFinish true s (v, none) = .error (.numError s .ErrRange) := by
  have h1 : 9223372036854775808 < v := by norm_num at h; exact h
  simp [parseIntFinish, h1]

theorem parseIntFinish_bad (neg : Bool) (s : GoString) {r : Nat × Option NumErr}
    (h : r = (maxVal, some .ErrRange) ∨ r.2 = some .ErrSyntax) :
    ∃ e, parseIntFinish neg s r = .error (.numError s e) := by
  rcases h with h | h
  · subst h
    refine ⟨.ErrRange, ?_⟩
    cases neg <;> simp [parseIntFinish, maxVal]
  · exact ⟨.ErrSyntax, by simp [parseIntFinish, h]⟩

/-- Reading of a sign-free text `ds` under the sign `neg`: accepted exactly
when `ds` is a non-empty digit string whose value does not exceed `bound`. -/
theorem parseIntFinish_spec (neg : Bool) (s ds : GoString) :
    (ds ≠ [] ∧ allDigits ds = true ∧ decVal ds < (if neg then 2 ^ 63 + 1 else 2 ^ 63) →
      parseIntFinish neg s (ParseUint ds) =
        .ok (if neg then -(decVal ds : Int) else (decVal ds : Int))) ∧
    (¬ (ds ≠ [] ∧ allDigits ds = true ∧ decVal ds < (if neg then 2 ^ 63 + 1 else 2 ^ 63)) →
      ∃ e, parseIntFinish neg s (ParseUint ds) = .error (.numError s e)) := by
  constructor
  · rintro ⟨hne, hd, hv⟩
    have hv64 : decVal ds < 2 ^ 64 := by
      cases neg <;> norm_num at hv ⊢ <;> omega
    rw [ParseUint_ok hne hd hv64]
    cases neg
    · simpa using parseIntFinish_pos (by simpa using hv)
    · simpa using parseIntFinish_neg (by simp at hv; omega)
  · intro hbad
    by_cases hu : ds ≠ [] ∧ allDigits ds = true ∧ decVal ds < 2 ^ 64
    · rw [ParseUint_ok hu.1 hu.2.1 hu.2.2]
      have hv : ¬ decVal ds < (if neg then 2 ^ 63 + 1 else 2 ^ 63) :=
        fun hv => hbad ⟨hu.1, hu.2.1, hv⟩
      cases neg
      · exact ⟨_, parseIntFinish_pos_range (by simpa using hv)⟩
      · exact ⟨_, parseIntFinish_neg_range (by simp at hv; omega)⟩
    · exact parseIntFinish_bad neg s (ParseUint_bad hu)

/-- The function `ParseInt` accepts exactly the int64 literals and returns their
value; every rejection is a `NumError` that carries the input. -/
theorem ParseInt_spec (s : GoString) :
    (isInt64Literal s = true → ParseInt s = .ok (litValue s)) ∧
    (isInt64Literal s = false → ∃ e, ParseInt s = .error (.numError s e)) := by
  cases s with
  | nil => exact ⟨fun h => by simp [isInt64Literal] at h, fun _ => ⟨.ErrSyntax, rfl⟩⟩
  | cons c cs =>
    rw [ParseInt_cons]
    by_cases hm : c = '-'
    · subst hm
      have hs := parseIntFinish_spec true ('-' :: cs) cs
      simp only [if_true] at hs
      constructor
      · intro h
        simp [isInt64Literal] at h
        simpa [litValue] using hs.1 ⟨h.1.1, h.1.2, by omega⟩
      · intro h
        have hb : ¬ (cs ≠ [] ∧ allDigits cs = true ∧ decVal cs < 2 ^ 63 + 1) := by
          intro hh
          have : isInt64Literal ('-' :: cs) = true := by
            simp [isInt64Literal, hh.1, hh.2.1]
            omega
          simp [this] at h
        simpa using hs.2 hb
    · by_cases hp : c = '+'
      · subst hp
        have hs := parseIntFinish_spec false ('+' :: cs) cs
        simp only [Bool.false_eq_true, if_false] at hs
        constructor
        · intro h
          simp [isInt64Literal] at h
          simpa [litValue] using hs.1 ⟨h.1.1, h.1.2, by omega⟩
        · intro h
          have hb : ¬ (cs ≠ [] ∧ allDigits cs = true ∧ decVal cs < 2 ^ 63) := by
            intro hh
            have : isInt64Literal ('+' :: cs) = true := by
              simp [isInt64Literal, hh.1, hh.2.1]
              omega
            simp [this] at h
          simpa using hs.2 hb
      · have hs := parseIntFinish_spec false (c :: cs) (c :: cs)
        simp only [Bool.false_eq_true, if_false] at hs
        have hcm : (c == '-') = false := by simpa using hm
        have hcp : (c == '+') = false := by simpa using hp
        simp only [hcm, hcp, Bool.false_eq_true, if_false]
        constructor
        · intro h
          simp [isInt64Literal, hm, hp] at h
          simpa [litValue, hm, hp] using hs.1 ⟨by simp, h.1, by omega⟩
        · intro h
          have hb : ¬ (c :: cs ≠ [] ∧ allDigits (c :: cs) = true ∧ decVal (c :: cs) < 2 ^ 63) := by
            intro hh
            have : isInt64Literal (c :: cs) = true := by
              simp [isInt64Literal, hm, hp, hh.2.1]
              omega
            simp [this] at h
          exact hs.2 hb
theorem digitChar_toNat {d : Nat} (h : d < 10) : (digitChar d).toNat = 48 + d := by
  interval_cases d <;> rfl

theorem isDigit_digitChar {d : Nat} (h : d < 10) : isDigit (digitChar d) = true := by
  interval_cases d <;> rfl

theorem pushDigit_digitChar (n : Nat) {d : Nat} (h : d < 10) :
    pushDigit n (digitChar d) = n * 10 + d := by
  unfold pushDigit
  rw [digitChar_toNat h]
  simp

theorem digitChar_of_isDigit {c : Char} (h : isDigit c = true) :
    digitChar (c.toNat - '0'.toNat) = c := by
  have hd := (isDigit_iff c).mp h
  unfold digitChar
  simp only [Char.reduceToNat]
  rw [show 48 + (c.toNat - 48) = c.toNat by omega]
  exact Char.ofNat_toNat c

theorem allDigits_append (a b : GoString) :
    allDigits (a ++ b) = (allDigits a && allDigits b) := by
  simp [allDigits]

theorem formatBits_append (fuel : Nat) : ∀ (u : Nat) (acc : GoString),
    formatBits fuel u acc = formatBits fuel u [] ++ acc := by
  induction fuel with
  | zero => intro u acc; rfl
  | succ f ih =>
    intro u acc
    by_cases h : u ≥ 10
    · simp only [formatBits, h, if_true]
      rw [ih (u / 10) (digitChar (u % 10) :: acc), ih (u / 10) [digitChar (u % 10)]]
      simp
    · simp [formatBits, h]

theorem formatBits_allDigits (fuel : Nat) : ∀ (u : Nat) (acc : GoString),
    allDigits acc = true → allDigits (formatBits fuel u acc) = true := by
  induction fuel with
  | zero => intro u acc h; exact h
  | succ f ih =>
    intro u acc hacc
    by_cases h : u ≥ 10
    · simp only [formatBits, h, if_true]
      apply ih
      have := isDigit_digitChar (Nat.mod_lt u (by norm_num : 10 > 0))
      simp only [allDigits, List.all_cons, this, Bool.true_and]
      exact hacc
    · have := isDigit_digitChar (Nat.not_le.mp h)
      simp only [formatBits, h, if_false, allDigits, List.all_cons, this, Bool.true_and]
      exact hacc

theorem formatBits_foldl (fuel : Nat) : ∀ (u : Nat) (acc : GoString), u < fuel →
    (formatBits fuel u acc).foldl pushDigit 0 = acc.foldl pushDigit u := by
  induction fuel with
  | zero => intro u acc h; exact absurd h (Nat.not_lt_zero _)
  | succ f ih =>
    intro u acc hu
    by_cases h : u ≥ 10
    · simp only [formatBits, h, if_true]
      rw [ih (u / 10) _ (by omega), List.foldl_cons,
        pushDigit_digitChar _ (Nat.mod_lt u (by norm_num : 10 > 0))]
      congr 1
      omega
    · simp only [formatBits, h, if_false, List.foldl_cons]
      rw [pushDigit_digitChar _ (Nat.not_le.mp h)]
      simp

theorem formatBits_ne_nil (fuel : Nat) : ∀ (u : Nat) (acc : GoString), u < fuel →
    formatBits fuel u acc ≠ [] := by
  induction fuel with
  | zero => intro u acc h; exact absurd h (Nat.not_lt_zero _)
  | succ f ih =>
    intro u acc hu
    by_cases h : u ≥ 10
    · simp only [formatBits, h, if_true]
      exact ih _ _ (by omega)
    · simp [formatBits, h]

theorem formatBits_head (fuel : Nat) : ∀ (u : Nat) (acc : GoString), u < fuel → 0 < u →
    (formatBits fuel u acc).head? ≠ some '0' := by
  induction fuel with
  | zero => intro u acc h; exact absurd h (Nat.not_lt_zero _)
  | succ f ih =>
    intro u acc hu hpos
    by_cases h : u ≥ 10
    · simp only [formatBits, h, if_true]
      exact ih _ _ (by omega) (by omega)
    · simp only [formatBits, h, if_false, List.head?_cons]
      have hlt : u < 10 := Nat.not_le.mp h
      interval_cases u <;> decide

theorem FormatUint_allDigits (u : Nat) : allDigits (FormatUint u) = true :=
  formatBits_allDigits _ _ _ rfl

theorem FormatUint_ne_nil (u : Nat) : FormatUint u ≠ [] :=
  formatBits_ne_nil _ _ _ (Nat.lt_succ_self u)

theorem decVal_FormatUint (u : Nat) : decVal (FormatUint u) = u := by
  unfold decVal FormatUint
  rw [formatBits_foldl _ _ _ (Nat.lt_succ_self u)]
  rfl

theorem isCanonical_iff (s : GoString) :
    isCanonical s = true ↔
      s ≠ [] ∧ allDigits s = true ∧ (s.head? ≠ some '0' ∨ s.length = 1) := by
  match s with
  | [] => simp [isCanonical]
  | [c] => simp [isCanonical, allDigits]
  | c :: d :: cs =>
    simp only [isCanonical, Bool.and_eq_true, Bool.not_eq_true', beq_eq_false_iff_ne, ne_eq,
      List.head?_cons, Option.some.injEq, List.length_cons]
    constructor
    · rintro ⟨h1, h2⟩; exact ⟨by simp, h1, Or.inl h2⟩
    · rintro ⟨_, h1, h2 | h2⟩
      · exact ⟨h1, h2⟩
      · omega

theorem FormatUint_isCanonical (u : Nat) : isCanonical (FormatUint u) = true := by
  rw [isCanonical_iff]
  refine ⟨FormatUint_ne_nil u, FormatUint_allDigits u, ?_⟩
  by_cases h : u = 0
  · subst h; right; rfl
  · left; exact formatBits_head _ _ _ (Nat.lt_succ_self u) (Nat.pos_of_ne_zero h)

theorem decVal_append_singleton (s : GoString) (c : Char) :
    decVal (s ++ [c]) = pushDigit (decVal s) c := by
  simp [decVal, List.foldl_append]

theorem decVal_pos {s : GoString} (hne : s ≠ []) (hd : allDigits s = true)
    (hh : s.head? ≠ some '0') : 0 < decVal s := by
  cases s with
  | nil => exact absurd rfl hne
  | cons c cs =>
    have hc : isDigit c = true := by
      simp [allDigits] at hd; exact hd.1
    have hr := (isDigit_iff c).mp hc
    have hc0 : c ≠ '0' := by simpa using hh
    have h48 : c.toNat ≠ 48 := by
      intro h
      apply hc0
      rw [← Char.ofNat_toNat c, h]
    have := le_foldl_pushDigit cs (pushDigit 0 c)
    unfold decVal
    simp only [List.foldl_cons]
    unfold pushDigit at this ⊢
    simp only [Char.reduceToNat] at this ⊢
    omega

/-- Formatting the value of a canonical decimal gives the decimal back. -/
theorem formatBits_decVal (s : GoString) : ∀ (fuel : Nat) (acc : GoString),
    s ≠ [] → allDigits s = true → (s.head? ≠ some '0' ∨ s.length = 1) → decVal s < fuel →
    formatBits fuel (decVal s) acc = s ++ acc := by
  induction s using List.reverseRecOn with
  | nil => intro fuel acc h; exact absurd rfl h
  | append_singleton init c ih =>
    intro fuel acc _ hd hh hf
    rw [allDigits_append] at hd
    simp only [Bool.and_eq_true] at hd
    have hc : isDigit c = true := by
      have := hd.2; simp [allDigits] at this; exact this
    have hr := (isDigit_iff c).mp hc
    rw [decVal_append_singleton] at hf ⊢
    cases fuel with
    | zero => exact absurd hf (Nat.not_lt_zero _)
    | succ f =>
      by_cases hi : init = []
      · subst hi
        have hlt : ¬ (pushDigit (decVal []) c ≥ 10) := by
          simp [pushDigit, decVal]; omega
        simp only [formatBits, hlt, if_false]
        have : pushDigit (decVal []) c = c.toNat - '0'.toNat := by simp [pushDigit, decVal]
        rw [this, digitChar_of_isDigit hc]
        simp
      · have hhead : init.head? ≠ some '0' := by
          rcases hh with h | h
          · cases init with
            | nil => exact absurd rfl hi
            | cons x xs => simpa using h
          · cases init with
            | nil => exact absurd rfl hi
            | cons x xs => simp at h
        have hpos := decVal_pos hi hd.1 hhead
        have hge : pushDigit (decVal init) c ≥ 10 := by
          unfold pushDigit; simp only [Char.reduceToNat]; omega
        have hdiv : pushDigit (decVal init) c / 10 = decVal init := by
          unfold pushDigit; simp only [Char.reduceToNat]; omega
        have hmod : pushDigit (decVal init) c % 10 = c.toNat - '0'.toNat := by
          unfold pushDigit; simp only [Char.reduceToNat]; omega
        simp only [formatBits, hge, if_true]
        rw [hdiv, hmod, digitChar_of_isDigit hc,
          ih f (c :: acc) hi hd.1 (Or.inl hhead) (by unfold pushDigit at hf; omega)]
        simp

theorem FormatUint_decVal {s : GoString} (h : isCanonical s = true) :
    FormatUint (decVal s) = s := by
  obtain ⟨hne, hd, hh⟩ := (isCanonical_iff s).mp h
  unfold FormatUint
  rw [formatBits_decVal s _ [] hne hd hh (Nat.lt_succ_self _)]
  simp

end strconv

/-! ## Accepted literals: consequences of `ParseInt_spec` -/

namespace strconv
open Spec

theorem ParseInt_ok_iff (s : GoString) (n : Int) :
    ParseInt s = .ok n ↔ isInt64Literal s = true ∧ n = litValue s := by
  constructor
  · intro h
    cases hl : isInt64Literal s with
    | true =>
      have := (ParseInt_spec s).1 hl
      rw [h] at this
      exact ⟨rfl, by injection this⟩
    | false =>
      obtain ⟨e, he⟩ := (ParseInt_spec s).2 hl
      rw [h] at he
      cases he
  · rintro ⟨hl, rfl⟩
    exact (ParseInt_spec s).1 hl

theorem ParseInt_error_iff (s : GoString) :
    (∃ e, ParseInt s = .error e) ↔ isInt64Literal s = false := by
  constructor
  · rintro ⟨e, he⟩
    cases hl : isInt64Literal s with
    | true =>
      have := (ParseInt_spec s).1 hl
      rw [he] at this
      cases this
    | false => rfl
  · intro hl
    obtain ⟨e, he⟩ := (ParseInt_spec s).2 hl
    exact ⟨_, he⟩

theorem not_mem_of_allDigits {s : GoString} {c : Char} (hd : allDigits s = true)
    (hc : isDigit c = false) : c ∉ s := by
  intro hmem
  have := List.all_eq_true.mp hd c hmem
  rw [hc] at this
  cases this

/-- The characters of an accepted literal: a sign or a digit. -/
theorem literal_chars {s : GoString} (h : isInt64Literal s = true) {c : Char}
    (hc : isDigit c = false) (hm : c ≠ '-') (hp : c ≠ '+') : c ∉ s := by
  cases s with
  | nil => simp
  | cons x xs =>
    by_cases h1 : x = '-'
    · subst h1
      simp [isInt64Literal] at h
      have := not_mem_of_allDigits h.1.2 hc
      simp [hm, this]
    · by_cases h2 : x = '+'
      · subst h2
        simp [isInt64Literal] at h
        have := not_mem_of_allDigits h.1.2 hc
        simp [hp, this]
      · simp [isInt64Literal, h1, h2] at h
        exact not_mem_of_allDigits h.1 hc

theorem literal_range {s : GoString} (h : isInt64Literal s = true) :
    minInt64 ≤ litValue s ∧ litValue s ≤ maxInt64 := by
  unfold minInt64 maxInt64
  cases s with
  | nil => simp [isInt64Literal] at h
  | cons x xs =>
    by_cases h1 : x = '-'
    · subst h1
      simp [isInt64Literal] at h
      simp only [litValue, if_true]
      have := h.2
      norm_num
      omega
    · by_cases h2 : x = '+'
      · subst h2
        simp [isInt64Literal] at h
        simp only [litValue, h1, if_false, if_true]
        have := h.2
        norm_num
        omega
      · simp [isInt64Literal, h1, h2] at h
        simp only [litValue, h1, h2, if_false]
        have := h.2
        norm_num
        omega

theorem litValue_nonneg {s : GoString} (h : s.head? ≠ some '-') : 0 ≤ litValue s := by
  cases s with
  | nil => simp [litValue]
  | cons x xs =>
    have h1 : x ≠ '-' := by simpa using h
    by_cases h2 : x = '+'
    · simp [litValue, h1, h2]
    · simp only [litValue, h1, h2, if_false]
      exact Int.natCast_nonneg _

/-- A non-empty digit string is a literal exactly when its value is below
`2^63`, and its value as a literal is its decimal value. -/
theorem digits_literal {s : GoString} (hne : s ≠ []) (hd : allDigits s = true) :
    isInt64Literal s = decide (decVal s < 2 ^ 63) ∧ litValue s = decVal s := by
  cases s with
  | nil => exact absurd rfl hne
  | cons x xs =>
    have hx : isDigit x = true := by simp [allDigits] at hd; exact hd.1
    have h1 : x ≠ '-' := by rintro rfl; exact absurd hx (by decide)
    have h2 : x ≠ '+' := by rintro rfl; exact absurd hx (by decide)
    simp [isInt64Literal, litValue, h1, h2, hd]

theorem ParseInt_canonical {s : GoString} (hc : isCanonical s = true)
    (hv : decVal s < 2 ^ 63) : ParseInt s = .ok (decVal s : Int) := by
  obtain ⟨hne, hd, _⟩ := (isCanonical_iff s).mp hc
  obtain ⟨h1, h2⟩ := digits_literal hne hd
  rw [ParseInt_ok_iff, h1, h2]
  exact ⟨by simpa using hv, rfl⟩

/-- An accepted canonical decimal is rendered back unchanged. -/
theorem FormatInt_of_ParseInt_canonical {s : GoString} {n : Int}
    (hc : isCanonical s = true) (h : ParseInt s = .ok n) :
    n = decVal s ∧ decVal s < 2 ^ 63 ∧ FormatInt n = s := by
  obtain ⟨hne, hd, _⟩ := (isCanonical_iff s).mp hc
  obtain ⟨h1, h2⟩ := digits_literal hne hd
  obtain ⟨hl, hn⟩ := (ParseInt_ok_iff s n).mp h
  rw [h1] at hl
  rw [h2] at hn
  subst hn
  refine ⟨rfl, by simpa using hl, ?_⟩
  unfold FormatInt
  simp only [Int.natAbs_ofNat]
  rw [if_neg (by omega), FormatUint_decVal hc]

theorem canonical_no_dot {s : GoString} (hc : isCanonical s = true) : '.' ∉ s :=
  not_mem_of_allDigits ((isCanonical_iff s).mp hc).2.1 (by decide)

theorem canonical_no_dash {s : GoString} (hc : isCanonical s = true) : '-' ∉ s :=
  not_mem_of_allDigits ((isCanonical_iff s).mp hc).2.1 (by decide)

theorem FormatInt_natCast (n : Nat) : FormatInt (n : Int) = FormatUint n := by
  unfold FormatInt
  simp only [Int.natAbs_ofNat]
  rw [if_neg (by omega)]

theorem FormatInt_of_nonneg {x : Int} (h : 0 ≤ x) : FormatInt x = FormatUint x.toNat := by
  obtain ⟨n, rfl⟩ := Int.eq_ofNat_of_zero_le h
  rw [FormatInt_natCast]; rfl

end strconv

/-! ## Parsing: the shape of `Parse` on each kind of input -/

namespace Spec

theorem before_of_not_mem {c : Char} {s : GoString} (h : c ∉ s) : before c s = s := by
  unfold before
  rw [List.takeWhile_eq_self_iff]
  intro x hx
  have : x ≠ c := fun e => h (e ▸ hx)
  simpa using this

theorem before_append {c : Char} {p : GoString} (r : GoString) (h : c ∉ p) :
    before c (p ++ c :: r) = p := by
  induction p with
  | nil => simp [before]
  | cons x xs ih =>
    have hx : x ≠ c := fun e => h (by simp [e])
    have hxs : c ∉ xs := fun e => h (by simp [e])
    have := ih hxs
    unfold before at this ⊢
    simp [hx, this]

theorem after_append {c : Char} {p : GoString} (r : GoString) (h : c ∉ p) :
    after c (p ++ c :: r) = r := by
  induction p with
  | nil => simp [after]
  | cons x xs ih =>
    have hx : x ≠ c := fun e => h (by simp [e])
    have hxs : c ∉ xs := fun e => h (by simp [e])
    have := ih hxs
    unfold after at this ⊢
    simp [hx, this]

end Spec

namespace strings
open Spec

theorem SplitN_three_of_not_mem {s : GoString} (h : '.' ∉ s) : SplitN s '.' 3 = [s] := by
  rw [show (3 : Nat) = 2 + 1 from rfl, SplitN_eq, genSplitLoop_of_not_mem _ h]

theorem SplitN_three_two {p r : GoString} (hp : '.' ∉ p) (hr : '.' ∉ r) :
    SplitN (p ++ '.' :: r) '.' 3 = [p, r] := by
  rw [show (3 : Nat) = 2 + 1 from rfl, SplitN_eq, genSplitLoop_append _ _ hp,
    genSplitLoop_of_not_mem _ hr]

theorem SplitN_three_three {p q : GoString} (r : GoString) (hp : '.' ∉ p) (hq : '.' ∉ q) :
    SplitN (p ++ '.' :: (q ++ '.' :: r)) '.' 3 = [p, q, r] := by
  rw [show (3 : Nat) = 2 + 1 from rfl, SplitN_eq, genSplitLoop_append _ _ hp,
    genSplitLoop_append _ _ hq]
  rfl

/-- The first part of a split in two at `-` is the text before the first `-`. -/
theorem SplitN_two_headD (s : GoString) : (SplitN s '-' 2).headD [] = before '-' s := by
  rw [show (2 : Nat) = 1 + 1 from rfl, SplitN_eq]
  rcases first_occurrence '-' s with h | ⟨p, r, rfl, hp⟩
  · rw [genSplitLoop_of_not_mem _ h, before_of_not_mem h]; rfl
  · rw [genSplitLoop_append _ _ hp, before_append _ hp]; rfl

end strings

open Spec in
/-- The three shapes of a text with respect to `.`, with its segments. -/
theorem segments_cases (s : GoString) :
    ('.' ∉ s ∧ strings.SplitN s '.' 3 = [s] ∧ segments s = [s]) ∨
    (∃ p r, s = p ++ '.' :: r ∧ '.' ∉ p ∧ '.' ∉ r ∧
      strings.SplitN s '.' 3 = [p, r] ∧ segments s = [p, r]) ∨
    (∃ p q r, s = p ++ '.' :: (q ++ '.' :: r) ∧ '.' ∉ p ∧ '.' ∉ q ∧
      strings.SplitN s '.' 3 = [p, q, r] ∧ segments s = [p, q, before '-' r]) := by
  rcases strings.first_occurrence '.' s with h | ⟨p, r, rfl, hp⟩
  · left
    exact ⟨h, strings.SplitN_three_of_not_mem h, by simp [segments, h]⟩
  · right
    have hmem : '.' ∈ p ++ '.' :: r := by simp
    rcases strings.first_occurrence '.' r with h | ⟨q, t, rfl, hq⟩
    · left
      refine ⟨p, r, rfl, hp, h, strings.SplitN_three_two hp h, ?_⟩
      simp only [segments, hmem, if_true, after_append _ hp, h, if_false, before_append _ hp]
    · right
      have hmem2 : '.' ∈ q ++ '.' :: t := by simp
      refine ⟨p, q, t, rfl, hp, hq, strings.SplitN_three_three t hp hq, ?_⟩
      simp only [segments, hmem, if_true, after_append _ hp, hmem2, before_append _ hp,
        before_append _ hq, after_append _ hq]

theorem Parse_nil : Parse [] = .error .emptyVersion := rfl

theorem Parse_one {s : GoString} (hne : s ≠ []) (h : '.' ∉ s) :
    Parse s = match strconv.ParseInt s with
      | .error err => .error err
      | .ok major => .ok { Major := major, Minor := -1, Patch := -1 } := by
  have hl : s.length ≠ 0 := fun e => hne (List.length_eq_zero.mp e)
  simp only [Parse, hl, if_false, strings.SplitN_three_of_not_mem h]

theorem Parse_two {p r : GoString} (hp : '.' ∉ p) (hr : '.' ∉ r) :
    Parse (p ++ '.' :: r) = match strconv.ParseInt p with
      | .error err => .error err
      | .ok major =>
        match strconv.ParseInt r with
        | .error err => .error err
        | .ok minor => .ok { Major := major, Minor := minor, Patch := -1 } := by
  have hl : (p ++ '.' :: r).length ≠ 0 := by simp
  simp only [Parse, hl, if_false, strings.SplitN_three_two hp hr]

theorem Parse_three {p q : GoString} (r : GoString) (hp : '.' ∉ p) (hq : '.' ∉ q) :
    Parse (p ++ '.' :: (q ++ '.' :: r)) = match strconv.ParseInt p with
      | .error err => .error err
      | .ok major =>
        match strconv.ParseInt q with
        | .error err => .error err
        | .ok minor =>
          match strconv.ParseInt (Spec.before '-' r) with
          | .error err => .error err
          | .ok patch => .ok { Major := major, Minor := minor, Patch := patch } := by
  have hl : (p ++ '.' :: (q ++ '.' :: r)).length ≠ 0 := by simp
  simp only [Parse, hl, if_false, strings.SplitN_three_three r hp hq,
    strings.SplitN_two_headD]

/-! ## Parsing: `Parse` against the segments of the text -/

open Spec in
/-- On a non-empty text `Parse` succeeds exactly when every segment is an
int64 literal, and then returns the values of the segments. -/
theorem Parse_segments {s : GoString} (hne : s ≠ []) :
    ((∀ p ∈ segments s, isInt64Literal p = true) →
      Parse s = .ok (versionOfSegments (segments s))) ∧
    ((∃ p ∈ segments s, isInt64Literal p = false) → ∃ e, Parse s = .error e) := by
  rcases segments_cases s with ⟨hd, _, hseg⟩ | ⟨p, r, rfl, hp, hr, _, hseg⟩ |
      ⟨p, q, r, rfl, hp, hq, _, hseg⟩
  · rw [hseg, Parse_one hne hd]
    constructor
    · intro h
      have h0 := (strconv.ParseInt_spec s).1 (h s (by simp))
      rw [h0]
      simp [versionOfSegments]
    · rintro ⟨x, hx, hlit⟩
      simp only [List.mem_singleton] at hx
      subst hx
      obtain ⟨e, he⟩ := (strconv.ParseInt_spec x).2 hlit
      rw [he]
      exact ⟨_, rfl⟩
  · rw [hseg, Parse_two hp hr]
    constructor
    · intro h
      rw [(strconv.ParseInt_spec p).1 (h p (by simp)),
        (strconv.ParseInt_spec r).1 (h r (by simp))]
      simp [versionOfSegments]
    · rintro ⟨x, hx, hlit⟩
      cases hl : isInt64Literal p with
      | false =>
        obtain ⟨e, he⟩ := (strconv.ParseInt_spec p).2 hl
        rw [he]; exact ⟨_, rfl⟩
      | true =>
        rw [(strconv.ParseInt_spec p).1 hl]
        have hxr : x = r := by
          simp only [List.mem_cons, List.mem_singleton, List.not_mem_nil, or_false] at hx
          rcases hx with rfl | rfl
          · rw [hl] at hlit; cases hlit
          · rfl
        subst hxr
        obtain ⟨e, he⟩ := (strconv.ParseInt_spec x).2 hlit
        rw [he]; exact ⟨_, rfl⟩
  · rw [hseg, Parse_three r hp hq]
    constructor
    · intro h
      rw [(strconv.ParseInt_spec p).1 (h p (by simp)),
        (strconv.ParseInt_spec q).1 (h q (by simp)),
        (strconv.ParseInt_spec (before '-' r)).1 (h _ (by simp))]
      simp [versionOfSegments]
    · rintro ⟨x, hx, hlit⟩
      cases hl : isInt64Literal p with
      | false =>
        obtain ⟨e, he⟩ := (strconv.ParseInt_spec p).2 hl
        rw [he]; exact ⟨_, rfl⟩
      | true =>
        rw [(strconv.ParseInt_spec p).1 hl]
        cases hl2 : isInt64Literal q with
        | false =>
          obtain ⟨e, he⟩ := (strconv.ParseInt_spec q).2 hl2
          rw [he]; exact ⟨_, rfl⟩
        | true =>
          rw [(strconv.ParseInt_spec q).1 hl2]
          have hxr : x = before '-' r := by
            simp only [List.mem_cons, List.mem_singleton, List.not_mem_nil, or_false] at hx
            rcases hx with rfl | rfl | rfl
            · rw [hl] at hlit; cases hlit
            · rw [hl2] at hlit; cases hlit
            · rfl
          subst hxr
          obtain ⟨e, he⟩ := (strconv.ParseInt_spec _).2 hlit
          rw [he]; exact ⟨_, rfl⟩

theorem Parse_ne_nil {s : GoString} {v : Version} (h : Parse s = .ok v) : s ≠ [] := by
  rintro rfl
  rw [Parse_nil] at h
  cases h

open Spec in
/-- An accepted text has literal segments only, and the result is their value. -/
theorem Parse_ok_segments {s : GoString} {v : Version} (h : Parse s = .ok v) :
    (∀ p ∈ segments s, isInt64Literal p = true) ∧ v = versionOfSegments (segments s) := by
  have hne := Parse_ne_nil h
  have hall : ∀ p ∈ segments s, isInt64Literal p = true := by
    intro p hp
    cases hl : isInt64Literal p with
    | true => rfl
    | false =>
      obtain ⟨e, he⟩ := (Parse_segments hne).2 ⟨p, hp, hl⟩
      rw [h] at he
      cases he
  refine ⟨hall, ?_⟩
  have := (Parse_segments hne).1 hall
  rw [h] at this
  injection this

open Spec in
/-- The fields of an accepted version are `int64` values. -/
theorem Parse_range {s : GoString} {v : Version} (h : Parse s = .ok v) :
    (minInt64 ≤ v.Major ∧ v.Major ≤ maxInt64) ∧
    (minInt64 ≤ v.Minor ∧ v.Minor ≤ maxInt64) ∧
    (minInt64 ≤ v.Patch ∧ v.Patch ≤ maxInt64) := by
  obtain ⟨hall, rfl⟩ := Parse_ok_segments h
  have hm1 : minInt64 ≤ (-1 : Int) ∧ (-1 : Int) ≤ maxInt64 := by
    unfold minInt64 maxInt64; norm_num
  rcases segments_cases s with ⟨_, _, hseg⟩ | ⟨p, r, _, _, _, _, hseg⟩ |
      ⟨p, q, r, _, _, _, _, hseg⟩
  · rw [hseg] at hall ⊢
    exact ⟨strconv.literal_range (hall s (by simp)), by simpa [versionOfSegments] using hm1,
      by simpa [versionOfSegments] using hm1⟩
  · rw [hseg] at hall ⊢
    exact ⟨strconv.literal_range (hall p (by simp)),
      by simpa [versionOfSegments] using strconv.literal_range (hall r (by simp)),
      by simpa [versionOfSegments] using hm1⟩
  · rw [hseg] at hall ⊢
    exact ⟨strconv.literal_range (hall p (by simp)),
      by simpa [versionOfSegments] using strconv.literal_range (hall q (by simp)),
      by simpa [versionOfSegments] using strconv.literal_range (hall _ (by simp))⟩

/-! ## Quotes: `strings.Replace` on accepted texts -/

namespace strings
open Spec

theorem Replace_of_not_mem {s : GoString} {c : Char} (h : c ∉ s) : Replace s c = s := by
  unfold Replace
  rw [List.filter_eq_self]
  intro x hx
  have : x ≠ c := fun e => h (e ▸ hx)
  simpa using this

theorem Replace_append (a b : GoString) (c : Char) :
    Replace (a ++ b) c = Replace a c ++ Replace b c := by
  simp [Replace]

theorem Replace_cons_of_ne {x c : Char} (s : GoString) (h : x ≠ c) :
    Replace (x :: s) c = x :: Replace s c := by
  simp [Replace, h]

theorem Replace_of_literal {p : GoString} (h : isInt64Literal p = true) :
    Replace p '"' = p :=
  Replace_of_not_mem (strconv.literal_chars h (by decide) (by decide) (by decide))

theorem before_Replace (r : GoString) :
    before '-' (Replace r '"') = Replace (before '-' r) '"' := by
  induction r with
  | nil => rfl
  | cons x xs ih =>
    by_cases hq : x = '"'
    · subst hq
      have h1 : Replace ('"' :: xs) '"' = Replace xs '"' := by simp [Replace]
      have h2 : before '-' ('"' :: xs) = '"' :: before '-' xs := by simp [before]
      rw [h1, h2, ih]
      simp [Replace]
    · rw [Replace_cons_of_ne _ hq]
      by_cases hd : x = '-'
      · subst hd
        simp [before, Replace]
      · have h2 : ∀ t : GoString, before '-' (x :: t) = x :: before '-' t := by
          intro t; simp [before, hd]
        rw [h2, h2, ih, Replace_cons_of_ne _ hq]

end strings

open Spec in
/-- Removing the quotes of an accepted text does not change what `Parse`
returns: quotes can only occur in the discarded suffix. -/
theorem Parse_Replace_of_ok {s : GoString} {v : Version} (h : Parse s = .ok v) :
    Parse (strings.Replace s '"') = .ok v := by
  obtain ⟨hall, _⟩ := Parse_ok_segments h
  have hdot : ('.' : Char) ≠ '"' := by decide
  rcases segments_cases s with ⟨_, _, hseg⟩ | ⟨p, r, rfl, _, _, _, hseg⟩ |
      ⟨p, q, r, rfl, hp, hq, _, hseg⟩
  · rw [hseg] at hall
    rw [strings.Replace_of_literal (hall s (by simp))]
    exact h
  · rw [hseg] at hall
    rw [strings.Replace_append, strings.Replace_cons_of_ne _ hdot,
      strings.Replace_of_literal (hall p (by simp)),
      strings.Replace_of_literal (hall r (by simp))]
    exact h
  · rw [hseg] at hall
    rw [strings.Replace_append, strings.Replace_cons_of_ne _ hdot,
      strings.Replace_append, strings.Replace_cons_of_ne _ hdot,
      strings.Replace_of_literal (hall p (by simp)),
      strings.Replace_of_literal (hall q (by simp))]
    rw [Parse_three r hp hq] at h
    rw [Parse_three _ hp hq, strings.before_Replace,
      strings.Replace_of_literal (hall (before '-' r) (by simp))]
    exact h

/-- The body of `changeVersion` once the text has been parsed. -/
theorem changeVersion_of_ok {s : GoString} {v : Version} (vtype : VersionType)
    (h : Parse s = .ok v) :
    changeVersion vtype s =
      if vtype = Major then
        .ok { Major := wrapInt64 (v.Major + 1)
              Minor := if v.Minor ≠ -1 then 0 else v.Minor
              Patch := if v.Patch ≠ -1 then 0 else v.Patch }
      else if vtype = Minor then
        .ok { Major := v.Major
              Minor := wrapInt64 ((if v.Minor = -1 then 0 else v.Minor) + 1)
              Patch := if v.Patch ≠ -1 then 0 else v.Patch }
      else if vtype = Patch then
        .ok { Major := v.Major
              Minor := v.Minor
              Patch := wrapInt64 ((if v.Patch = -1 then 0 else v.Patch) + 1) }
      else .error (.invalidVersionType vtype) := by
  have hMm : Minor ≠ Major := by decide
  have hPM : Patch ≠ Major := by decide
  have hPm : Patch ≠ Minor := by decide
  unfold changeVersion
  simp only [Parse_Replace_of_ok h]
  by_cases h1 : vtype = Major
  · subst h1
    simp only [if_true]
    by_cases hm : v.Minor = -1 <;> by_cases hp : v.Patch = -1 <;> simp [hm, hp]
  · by_cases h2 : vtype = Minor
    · subst h2
      simp only [hMm, if_true, if_false]
      by_cases hm : v.Minor = -1 <;> by_cases hp : v.Patch = -1 <;> simp [hm, hp]
    · by_cases h3 : vtype = Patch
      · subst h3
        simp only [hPM, hPm, if_true, if_false]
        by_cases hp : v.Patch = -1 <;> simp [hp]
      · simp only [h1, h2, h3, if_false]

theorem wrapInt64_of_range {x : Int} (h1 : minInt64 ≤ x) (h2 : x ≤ maxInt64) :
    wrapInt64 x = x := by
  unfold minInt64 at h1
  unfold maxInt64 at h2
  unfold wrapInt64
  norm_num at h1 h2 ⊢
  omega

/-! ## Rendering: the branches of `Version.String` -/

theorem String_three {v : Version} (h0 : 0 ≤ v.Major) (h1 : 0 ≤ v.Minor) (h2 : 0 ≤ v.Patch) :
    v.String = strconv.FormatInt v.Major ++ '.' :: strconv.FormatInt v.Minor
      ++ '.' :: strconv.FormatInt v.Patch := by
  unfold Version.String
  rw [if_pos ⟨h0, h1, h2⟩]

theorem String_two {v : Version} (h0 : 0 ≤ v.Major) (h1 : 0 ≤ v.Minor) (h2 : v.Patch < 0) :
    v.String = strconv.FormatInt v.Major ++ '.' :: strconv.FormatInt v.Minor := by
  unfold Version.String
  rw [if_neg (fun h => absurd h.2.2 (by omega)), if_pos ⟨h0, h1⟩]

theorem String_one {v : Version} (h0 : 0 ≤ v.Major) (h1 : v.Minor < 0) :
    v.String = strconv.FormatInt v.Major := by
  unfold Version.String
  rw [if_neg (fun h => absurd h.2.1 (by omega)), if_neg (fun h => absurd h.2 (by omega)),
    if_pos h0]

theorem String_invalid {v : Version} (h0 : v.Major < 0) :
    v.String = "%!s(INVALID_VERSION)".data := by
  unfold Version.String
  rw [if_neg (fun h => absurd h.1 (by omega)), if_neg (fun h => absurd h.1 (by omega)),
    if_neg (by omega)]

/-- A rendered non-negative number starts with a digit. -/
theorem FormatInt_head {x : Int} (h : 0 ≤ x) :
    ∃ c rest, strconv.FormatInt x = c :: rest ∧ strconv.isDigit c = true := by
  rw [strconv.FormatInt_of_nonneg h]
  have hne := strconv.FormatUint_ne_nil x.toNat
  have hd := strconv.FormatUint_allDigits x.toNat
  cases hf : strconv.FormatUint x.toNat with
  | nil => exact absurd hf hne
  | cons c rest =>
    rw [hf] at hd
    simp [Spec.allDigits] at hd
    exact ⟨c, rest, rfl, hd.1⟩

/-- A version with a non-negative major is rendered with a leading digit. -/
theorem String_head {v : Version} (h0 : 0 ≤ v.Major) :
    ∃ c rest, v.String = c :: rest ∧ strconv.isDigit c = true := by
  obtain ⟨c, rest, hf, hc⟩ := FormatInt_head h0
  by_cases h1 : 0 ≤ v.Minor
  · by_cases h2 : 0 ≤ v.Patch
    · exact ⟨c, _, by rw [String_three h0 h1 h2, hf]; rfl, hc⟩
    · exact ⟨c, _, by rw [String_two h0 h1 (by omega), hf]; rfl, hc⟩
  · exact ⟨c, _, by rw [String_one h0 (by omega), hf], hc⟩

/-! ## The claims -/

open Spec

/-- C1: for natural numbers `a`, `b`, `c` below `2^63` written in canonical
decimal as `sa`, `sb`, `sc` (no sign, no leading zeros), `Parse` succeeds on
the texts `a`, `a.b` and `a.b.c`, returns the numbers in the fields that are
written, and `-1` in every field that is not written. -/
theorem C1_Parse_canonical_forms (a b c : Nat) (sa sb sc : GoString)
    (ha : isCanonical sa = true ∧ decVal sa = a) (hb : isCanonical sb = true ∧ decVal sb = b)
    (hc : isCanonical sc = true ∧ decVal sc = c)
    (hal : a < 2 ^ 63) (hbl : b < 2 ^ 63) (hcl : c < 2 ^ 63) :
    Parse sa = .ok { Major := a, Minor := -1, Patch := -1 } ∧
    Parse (sa ++ '.' :: sb) = .ok { Major := a, Minor := b, Patch := -1 } ∧
    Parse (sa ++ '.' :: (sb ++ '.' :: sc)) = .ok { Major := a, Minor := b, Patch := c } := by
  obtain ⟨hca, rfl⟩ := ha
  obtain ⟨hcb, rfl⟩ := hb
  obtain ⟨hcc, rfl⟩ := hc
  have hda := strconv.canonical_no_dot hca
  have hdb := strconv.canonical_no_dot hcb
  have hne : sa ≠ [] := ((strconv.isCanonical_iff sa).mp hca).1
  refine ⟨?_, ?_, ?_⟩
  · rw [Parse_one hne hda, strconv.ParseInt_canonical hca hal]
  · rw [Parse_two hda hdb, strconv.ParseInt_canonical hca hal,
      strconv.ParseInt_canonical hcb hbl]
  · rw [Parse_three sc hda hdb, strconv.ParseInt_canonical hca hal,
      strconv.ParseInt_canonical hcb hbl,
      before_of_not_mem (strconv.canonical_no_dash hcc), strconv.ParseInt_canonical hcc hcl]

/-- Witness of C1 at `a = 12`, `b = 0`, `c = 7`. -/
theorem C1_Parse_canonical_forms_witness :
    Parse "12".data = .ok { Major := 12, Minor := -1, Patch := -1 } ∧
    Parse "12.0".data = .ok { Major := 12, Minor := 0, Patch := -1 } ∧
    Parse "12.0.7".data = .ok { Major := 12, Minor := 0, Patch := 7 } :=
  C1_Parse_canonical_forms 12 0 7 "12".data "0".data "7".data
    ⟨by decide, by decide⟩ ⟨by decide, by decide⟩ ⟨by decide, by decide⟩
    (by norm_num) (by norm_num) (by norm_num)

/-- C2: for every text `s` that `Parse` accepts with a major below the int64
maximum, `changeVersion` with bump type `major` returns the parsed version with
the major increased by exactly 1, the minor set to 0 when it was present and
left `-1` otherwise, and the patch set to 0 when it was present and left `-1`
otherwise. -/
theorem C2_major_bump (s : GoString) (v : Version) (h : Parse s = .ok v)
    (hmax : v.Major < maxInt64) :
    changeVersion Major s = .ok
      { Major := v.Major + 1
        Minor := if v.Minor = -1 then -1 else 0
        Patch := if v.Patch = -1 then -1 else 0 } := by
  obtain ⟨⟨hlo, _⟩, _, _⟩ := Parse_range h
  rw [changeVersion_of_ok Major h, if_pos rfl,
    wrapInt64_of_range (by omega) (by omega)]
  by_cases hm : v.Minor = -1 <;> by_cases hp : v.Patch = -1 <;> simp [hm, hp]

/-- Witness of C2 at the text `1.2`, which becomes `2.0`. -/
theorem C2_major_bump_witness :
    Parse "1.2".data = .ok { Major := 1, Minor := 2, Patch := -1 } ∧
    changeVersion Major "1.2".data = .ok { Major := 1 + 1, Minor := 0, Patch := -1 } :=
  ⟨by decide, C2_major_bump "1.2".data { Major := 1, Minor := 2, Patch := -1 } (by decide)
    (by decide)⟩

/-- C3: for every text `s` that `Parse` accepts with a minor below the int64
maximum, `changeVersion` with bump type `minor` leaves the major unchanged,
sets the minor to the old minor plus 1 when it was present and to 1 when it
was absent, and sets the patch to 0 when it was present while an absent patch
stays absent. -/
theorem C3_minor_bump (s : GoString) (v : Version) (h : Parse s = .ok v)
    (hmax : v.Minor < maxInt64) :
    changeVersion Minor s = .ok
      { Major := v.Major
        Minor := if v.Minor = -1 then 1 else v.Minor + 1
        Patch := if v.Patch = -1 then -1 else 0 } := by
  obtain ⟨_, ⟨hlo, _⟩, _⟩ := Parse_range h
  have hMm : Minor ≠ Major := by decide
  rw [changeVersion_of_ok Minor h, if_neg hMm, if_pos rfl]
  by_cases hm : v.Minor = -1
  · have h1 : wrapInt64 1 = 1 := by decide
    by_cases hp : v.Patch = -1 <;> simp [hm, hp, h1]
  · have h1 : wrapInt64 (v.Minor + 1) = v.Minor + 1 :=
      wrapInt64_of_range (by omega) (by omega)
    by_cases hp : v.Patch = -1 <;> simp [hm, hp, h1]

/-- Witness of C3 at the text `1`, which becomes `1.1`. -/
theorem C3_minor_bump_witness :
    Parse "1".data = .ok { Major := 1, Minor := -1, Patch := -1 } ∧
    changeVersion Minor "1".data = .ok { Major := 1, Minor := 1, Patch := -1 } :=
  ⟨by decide, C3_minor_bump "1".data { Major := 1, Minor := -1, Patch := -1 } (by decide)
    (by decide)⟩

/-- C4: for every text `s` that `Parse` accepts with a patch below the int64
maximum, `changeVersion` with bump type `patch` leaves the major and the minor
unchanged and sets the patch to the old patch plus 1 when it was present and
to 1 when it was absent. -/
theorem C4_patch_bump (s : GoString) (v : Version) (h : Parse s = .ok v)
    (hmax : v.Patch < maxInt64) :
    changeVersion Patch s = .ok
      { Major := v.Major
        Minor := v.Minor
        Patch := if v.Patch = -1 then 1 else v.Patch + 1 } := by
  obtain ⟨_, _, ⟨hlo, _⟩⟩ := Parse_range h
  have hPM : Patch ≠ Major := by decide
  have hPm : Patch ≠ Minor := by decide
  rw [changeVersion_of_ok Patch h, if_neg hPM, if_neg hPm, if_pos rfl]
  by_cases hp : v.Patch = -1
  · have h1 : wrapInt64 1 = 1 := by decide
    simp [hp, h1]
  · have h1 : wrapInt64 (v.Patch + 1) = v.Patch + 1 :=
      wrapInt64_of_range (by omega) (by omega)
    simp [hp, h1]

/-- Witness of C4 at the text `1.2`, which becomes `1.2.1`. -/
theorem C4_patch_bump_witness :
    Parse "1.2".data = .ok { Major := 1, Minor := 2, Patch := -1 } ∧
    changeVersion Patch "1.2".data = .ok { Major := 1, Minor := 2, Patch := 1 } :=
  ⟨by decide, C4_patch_bump "1.2".data { Major := 1, Minor := 2, Patch := -1 } (by decide)
    (by decide)⟩

/-- C5, counterexample: the text `01` is accepted by `Parse`, is one segment
and contains no `-`, yet it is rendered back as `1`. -/
theorem C5_round_trip_counterexample :
    Parse "01".data = .ok { Major := 1, Minor := -1, Patch := -1 } ∧
    strings.SplitN "01".data '.' 3 = ["01".data] ∧
    '-' ∉ "01".data ∧
    Version.String { Major := 1, Minor := -1, Patch := -1 } = "1".data ∧
    Version.String { Major := 1, Minor := -1, Patch := -1 } ≠ "01".data := by
  decide

/-- C5, amended: for every text `s` that `Parse` accepts and whose parts
between the dots (one, two or three of them) are each a canonical decimal (no
sign, no leading zeros, hence no `-` suffix either), rendering the parsed
version gives `s` back. -/
theorem C5_round_trip_canonical (s : GoString) (v : Version) (h : Parse s = .ok v)
    (hc : ∀ p ∈ strings.SplitN s '.' 3, isCanonical p = true) : v.String = s := by
  have hne := Parse_ne_nil h
  rcases segments_cases s with ⟨hd, hsplit, _⟩ | ⟨p, r, rfl, hp, hr, hsplit, _⟩ |
      ⟨p, q, r, rfl, hp, hq, hsplit, _⟩
  · rw [hsplit] at hc
    have hcs := hc s (by simp)
    rw [Parse_one hne hd] at h
    cases hpi : strconv.ParseInt s with
    | error e => rw [hpi] at h; cases h
    | ok n =>
      rw [hpi] at h
      injection h with h
      subst h
      obtain ⟨hn, _, hf⟩ := strconv.FormatInt_of_ParseInt_canonical hcs hpi
      rw [String_one (by simp [hn]) (by simp), hf]
  · rw [hsplit] at hc
    have hcp := hc p (by simp)
    have hcr := hc r (by simp)
    rw [Parse_two hp hr] at h
    cases hpi : strconv.ParseInt p with
    | error e => rw [hpi] at h; cases h
    | ok n =>
      cases hri : strconv.ParseInt r with
      | error e => rw [hpi, hri] at h; cases h
      | ok m =>
        rw [hpi, hri] at h
        injection h with h
        subst h
        obtain ⟨hn, _, hf⟩ := strconv.FormatInt_of_ParseInt_canonical hcp hpi
        obtain ⟨hm, _, hg⟩ := strconv.FormatInt_of_ParseInt_canonical hcr hri
        rw [String_two (by simp [hn]) (by simp [hm]) (by simp), hf, hg]
  · rw [hsplit] at hc
    have hcp := hc p (by simp)
    have hcq := hc q (by simp)
    have hcr := hc r (by simp)
    rw [Parse_three r hp hq, before_of_not_mem (strconv.canonical_no_dash hcr)] at h
    cases hpi : strconv.ParseInt p with
    | error e => rw [hpi] at h; cases h
    | ok n =>
      cases hqi : strconv.ParseInt q with
      | error e => rw [hpi, hqi] at h; cases h
      | ok m =>
        cases hri : strconv.ParseInt r with
        | error e => rw [hpi, hqi, hri] at h; cases h
        | ok k =>
          rw [hpi, hqi, hri] at h
          injection h with h
          subst h
          obtain ⟨hn, _, hf⟩ := strconv.FormatInt_of_ParseInt_canonical hcp hpi
          obtain ⟨hm, _, hg⟩ := strconv.FormatInt_of_ParseInt_canonical hcq hqi
          obtain ⟨hk, _, hh⟩ := strconv.FormatInt_of_ParseInt_canonical hcr hri
          rw [String_three (by simp [hn]) (by simp [hm]) (by simp [hk]), hf, hg, hh]
          simp

/-- Witness of the amended C5 at the text `10.0.7`. -/
theorem C5_round_trip_canonical_witness :
    Parse "10.0.7".data = .ok { Major := 10, Minor := 0, Patch := 7 } ∧
    (∀ p ∈ strings.SplitN "10.0.7".data '.' 3, isCanonical p = true) ∧
    Version.String { Major := 10, Minor := 0, Patch := 7 } = "10.0.7".data :=
  ⟨by decide, by decide,
    C5_round_trip_canonical "10.0.7".data { Major := 10, Minor := 0, Patch := 7 }
      (by decide) (by decide)⟩

/-- C6: for every version, `String` is the marker `%!s(INVALID_VERSION)` when
the major is negative, the major alone when the major is not negative and the
minor is (whatever the patch is), `major.minor` when only the patch is
negative, and `major.minor.patch` when no field is negative; every number
that is rendered is the canonical decimal of the field. -/
theorem C6_String_cases (v : Version) :
    v.String =
      (if v.Major < 0 then "%!s(INVALID_VERSION)".data
       else if v.Minor < 0 then strconv.FormatInt v.Major
       else if v.Patch < 0 then
         strconv.FormatInt v.Major ++ ".".data ++ strconv.FormatInt v.Minor
       else
         strconv.FormatInt v.Major ++ ".".data ++ strconv.FormatInt v.Minor
           ++ ".".data ++ strconv.FormatInt v.Patch) ∧
    ∀ n : Nat, isCanonical (strconv.FormatInt (n : Int)) = true ∧
      decVal (strconv.FormatInt (n : Int)) = n := by
  constructor
  · by_cases h0 : v.Major < 0
    · rw [if_pos h0, String_invalid h0]
    · rw [if_neg h0]
      by_cases h1 : v.Minor < 0
      · rw [if_pos h1, String_one (by omega) h1]
      · rw [if_neg h1]
        by_cases h2 : v.Patch < 0
        · rw [if_pos h2, String_two (by omega) (by omega) h2]
          simp
        · rw [if_neg h2, String_three (by omega) (by omega) (by omega)]
          simp
  · intro n
    rw [strconv.FormatInt_natCast]
    exact ⟨strconv.FormatUint_isCanonical n, strconv.decVal_FormatUint n⟩

/-- C7: `Parse` returns an error exactly when the text is empty or one of its
segments (the text split at `.` into at most three parts, the third cut off at
its first `-`) is not a valid base-10 signed 64-bit integer literal; in every
other case it succeeds with the values of the segments. -/
theorem C7_Parse_fails_iff (s : GoString) :
    ((∃ e, Parse s = .error e) ↔
      (s = [] ∨ ∃ p ∈ segments s, isInt64Literal p = false)) ∧
    (¬ (s = [] ∨ ∃ p ∈ segments s, isInt64Literal p = false) →
      Parse s = .ok (versionOfSegments (segments s))) := by
  have hgood : ¬ (s = [] ∨ ∃ p ∈ segments s, isInt64Literal p = false) →
      Parse s = .ok (versionOfSegments (segments s)) := by
    intro hb
    have hne : s ≠ [] := fun e => hb (Or.inl e)
    apply (Parse_segments hne).1
    intro p hp
    cases hl : isInt64Literal p with
    | true => rfl
    | false => exact absurd (Or.inr ⟨p, hp, hl⟩) hb
  refine ⟨⟨?_, ?_⟩, hgood⟩
  · rintro ⟨e, he⟩
    by_contra hb
    rw [hgood hb] at he
    cases he
  · rintro (rfl | hex)
    · exact ⟨_, Parse_nil⟩
    · by_cases hne : s = []
      · subst hne; exact ⟨_, Parse_nil⟩
      · exact (Parse_segments hne).2 hex

/-- C8: for canonical decimals `sa`, `sb`, `sc` of naturals `a`, `b`, `c` below
`2^63` and every text `t`, `Parse` succeeds on `a.b.c-t` with the fields `a`,
`b`, `c`, the same result as on `a.b.c`: everything from the first `-` of the
third segment on is discarded. -/
theorem C8_suffix_discarded (a b c : Nat) (sa sb sc t : GoString)
    (ha : isCanonical sa = true ∧ decVal sa = a) (hb : isCanonical sb = true ∧ decVal sb = b)
    (hc : isCanonical sc = true ∧ decVal sc = c)
    (hal : a < 2 ^ 63) (hbl : b < 2 ^ 63) (hcl : c < 2 ^ 63) :
    Parse (sa ++ '.' :: (sb ++ '.' :: (sc ++ '-' :: t))) =
      .ok { Major := a, Minor := b, Patch := c } ∧
    Parse (sa ++ '.' :: (sb ++ '.' :: (sc ++ '-' :: t))) =
      Parse (sa ++ '.' :: (sb ++ '.' :: sc)) := by
  obtain ⟨hca, rfl⟩ := ha
  obtain ⟨hcb, rfl⟩ := hb
  obtain ⟨hcc, rfl⟩ := hc
  have hda := strconv.canonical_no_dot hca
  have hdb := strconv.canonical_no_dot hcb
  have hmc := strconv.canonical_no_dash hcc
  have h1 : Parse (sa ++ '.' :: (sb ++ '.' :: (sc ++ '-' :: t))) =
      .ok { Major := decVal sa, Minor := decVal sb, Patch := decVal sc } := by
    rw [Parse_three _ hda hdb, strconv.ParseInt_canonical hca hal,
      strconv.ParseInt_canonical hcb hbl, before_append _ hmc,
      strconv.ParseInt_canonical hcc hcl]
  have h2 : Parse (sa ++ '.' :: (sb ++ '.' :: sc)) =
      .ok { Major := decVal sa, Minor := decVal sb, Patch := decVal sc } := by
    rw [Parse_three _ hda hdb, strconv.ParseInt_canonical hca hal,
      strconv.ParseInt_canonical hcb hbl, before_of_not_mem hmc,
      strconv.ParseInt_canonical hcc hcl]
  exact ⟨h1, h1.trans h2.symm⟩

/-- Witness of C8 at the text `2.0.0-beta.1-rc`. -/
theorem C8_suffix_discarded_witness :
    Parse "2.0.0-beta.1-rc".data = .ok { Major := 2, Minor := 0, Patch := 0 } ∧
    Parse "2.0.0-beta.1-rc".data = Parse "2.0.0".data :=
  C8_suffix_discarded 2 0 0 "2".data "0".data "0".data "beta.1-rc".data
    ⟨by decide, by decide⟩ ⟨by decide, by decide⟩ ⟨by decide, by decide⟩
    (by norm_num) (by norm_num) (by norm_num)

/-- C9, counterexample: on the accepted text `1.2.3` and the bump type `bogus`
the error of `changeVersion` has the message `Invalid version type: bogus`,
with a capital `I`; no message of it is `invalid version type: bogus`. -/
theorem C9_invalid_type_counterexample :
    Parse "1.2.3".data = .ok { Major := 1, Minor := 2, Patch := 3 } ∧
    changeVersion "bogus".data "1.2.3".data = .error (.invalidVersionType "bogus".data) ∧
    ¬ ∃ quote e, changeVersion "bogus".data "1.2.3".data = .error e ∧
      Error.Error quote e = "invalid version type: ".data ++ "bogus".data := by
  refine ⟨by decide, by decide, ?_⟩
  rintro ⟨quote, e, he, hmsg⟩
  have hcv : changeVersion "bogus".data "1.2.3".data =
      .error (.invalidVersionType "bogus".data) := by decide
  rw [hcv] at he
  injection he with he
  subst he
  revert hmsg
  simp only [Error.Error]
  decide

/-- C9, amended: for every text `s` that `Parse` accepts and every bump type
`f` other than `major`, `minor` and `patch` (compared exactly), `changeVersion`
returns no version but the error whose message is `Invalid version type: `
followed by `f`. -/
theorem C9_invalid_type (s : GoString) (v : Version) (f : VersionType)
    (h : Parse s = .ok v) (hM : f ≠ Major) (hm : f ≠ Minor) (hp : f ≠ Patch) :
    changeVersion f s = .error (.invalidVersionType f) ∧
    ∀ quote, Error.Error quote (.invalidVersionType f) = "Invalid version type: ".data ++ f := by
  refine ⟨?_, fun _ => rfl⟩
  rw [changeVersion_of_ok f h, if_neg hM, if_neg hm, if_neg hp]

/-- Witness of the amended C9 at the text `1.2.3` and the bump type `Major`,
which differs from `major` in the case of one letter. -/
theorem C9_invalid_type_witness :
    Parse "1.2.3".data = .ok { Major := 1, Minor := 2, Patch := 3 } ∧
    changeVersion "Major".data "1.2.3".data = .error (.invalidVersionType "Major".data) ∧
    ∀ quote, Error.Error quote (.invalidVersionType "Major".data) =
      "Invalid version type: ".data ++ "Major".data :=
  ⟨by decide,
    C9_invalid_type "1.2.3".data { Major := 1, Minor := 2, Patch := 3 } "Major".data
      (by decide) (by decide) (by decide) (by decide)⟩

/-- C10, counterexample: `Parse` accepts the text `-1` with the major `-1`,
which is negative, and that version is rendered as the marker. -/
theorem C10_major_nonneg_counterexample :
    Parse "-1".data = .ok { Major := -1, Minor := -1, Patch := -1 } ∧
    ¬ (0 ≤ (Version.mk (-1) (-1) (-1)).Major) ∧
    Version.String { Major := -1, Minor := -1, Patch := -1 } = "%!s(INVALID_VERSION)".data := by
  decide

/-- C10, amended: for every text `s` that `Parse` accepts and that does not
start with the sign `-`, the major of the result is not negative, and the
result is never rendered as the marker `%!s(INVALID_VERSION)`. -/
theorem C10_major_nonneg (s : GoString) (v : Version) (h : Parse s = .ok v)
    (hs : s.head? ≠ some '-') :
    0 ≤ v.Major ∧ v.String ≠ "%!s(INVALID_VERSION)".data := by
  have hmaj : 0 ≤ v.Major := by
    obtain ⟨_, rfl⟩ := Parse_ok_segments h
    have hpre : ∀ p r : GoString, (p ++ '.' :: r).head? ≠ some '-' → p.head? ≠ some '-' := by
      intro p r hh
      cases p with
      | nil => simp
      | cons x xs => simpa using hh
    rcases segments_cases s with ⟨_, _, hseg⟩ | ⟨p, r, rfl, _, _, _, hseg⟩ |
        ⟨p, q, r, rfl, _, _, _, hseg⟩
    · rw [hseg]
      exact strconv.litValue_nonneg hs
    · rw [hseg]
      exact strconv.litValue_nonneg (hpre p r hs)
    · rw [hseg]
      exact strconv.litValue_nonneg (hpre p _ hs)
  refine ⟨hmaj, ?_⟩
  obtain ⟨c, rest, hstr, hc⟩ := String_head hmaj
  rw [hstr]
  intro heq
  injection heq with h1 _
  subst h1
  exact absurd hc (by decide)

/-- Witness of the amended C10 at the text `+0.5`. -/
theorem C10_major_nonneg_witness :
    Parse "+0.5".data = .ok { Major := 0, Minor := 5, Patch := -1 } ∧
    0 ≤ (Version.mk 0 5 (-1)).Major ∧
    Version.String { Major := 0, Minor := 5, Patch := -1 } ≠ "%!s(INVALID_VERSION)".data :=
  ⟨by decide,
    C10_major_nonneg "+0.5".data { Major := 0, Minor := 5, Patch := -1 } (by decide)
      (by decide)⟩

/-! ## Errors of `Parse`, and the number of parts -/

theorem strconv.ParseInt_error_numError {s : GoString} {e : Error}
    (h : strconv.ParseInt s = .error e) : ∃ k, e = .numError s k := by
  have hl : Spec.isInt64Literal s = false := (strconv.ParseInt_error_iff s).mp ⟨e, h⟩
  obtain ⟨k, hk⟩ := (strconv.ParseInt_spec s).2 hl
  rw [h] at hk
  injection hk with hk
  exact ⟨k, hk⟩

/-- Every error of `Parse` is the empty-text error or a `NumError`. -/
theorem Parse_error_kind {s : GoString} {e : Error} (h : Parse s = .error e) :
    (s = [] ∧ e = .emptyVersion) ∨ (s ≠ [] ∧ ∃ num k, e = .numError num k) := by
  by_cases hne : s = []
  · subst hne
    rw [Parse_nil] at h
    injection h with h
    exact Or.inl ⟨rfl, h.symm⟩
  · right
    refine ⟨hne, ?_⟩
    rcases segments_cases s with ⟨hd, _, _⟩ | ⟨p, r, rfl, hp, hr, _, _⟩ |
        ⟨p, q, r, rfl, hp, hq, _, _⟩
    · rw [Parse_one hne hd] at h
      cases hpi : strconv.ParseInt s with
      | error e1 =>
        rw [hpi] at h
        injection h with h
        subst h
        obtain ⟨k, hk⟩ := strconv.ParseInt_error_numError hpi
        exact ⟨_, k, hk⟩
      | ok n => rw [hpi] at h; cases h
    · rw [Parse_two hp hr] at h
      cases hpi : strconv.ParseInt p with
      | error e1 =>
        rw [hpi] at h
        injection h with h
        subst h
        obtain ⟨k, hk⟩ := strconv.ParseInt_error_numError hpi
        exact ⟨_, k, hk⟩
      | ok n =>
        cases hri : strconv.ParseInt r with
        | error e1 =>
          rw [hpi, hri] at h
          injection h with h
          subst h
          obtain ⟨k, hk⟩ := strconv.ParseInt_error_numError hri
          exact ⟨_, k, hk⟩
        | ok m => rw [hpi, hri] at h; cases h
    · rw [Parse_three r hp hq] at h
      cases hpi : strconv.ParseInt p with
      | error e1 =>
        rw [hpi] at h
        injection h with h
        subst h
        obtain ⟨k, hk⟩ := strconv.ParseInt_error_numError hpi
        exact ⟨_, k, hk⟩
      | ok n =>
        cases hqi : strconv.ParseInt q with
        | error e1 =>
          rw [hpi, hqi] at h
          injection h with h
          subst h
          obtain ⟨k, hk⟩ := strconv.ParseInt_error_numError hqi
          exact ⟨_, k, hk⟩
        | ok m =>
          cases hri : strconv.ParseInt (Spec.before '-' r) with
          | error e1 =>
            rw [hpi, hqi, hri] at h
            injection h with h
            subst h
            obtain ⟨k, hk⟩ := strconv.ParseInt_error_numError hri
            exact ⟨_, k, hk⟩
          | ok k => rw [hpi, hqi, hri] at h; cases h

theorem SplitN_three_length (s : GoString) :
    1 ≤ (strings.SplitN s '.' 3).length ∧ (strings.SplitN s '.' 3).length ≤ 3 := by
  rcases segments_cases s with ⟨_, h, _⟩ | ⟨p, r, _, _, _, h, _⟩ | ⟨p, q, r, _, _, _, h, _⟩ <;>
    rw [h] <;> simp

/-! ## White space: facts about `strings.TrimSpace` -/

namespace strings

theorem dropWhile_of_head {p : Char → Bool} {s : GoString}
    (h : ∀ c, s.head? = some c → p c = false) : s.dropWhile p = s := by
  cases s with
  | nil => rfl
  | cons x xs =>
    have hx : p x = false := h x rfl
    simp [List.dropWhile, hx]

theorem dropWhile_append_all {p : Char → Bool} (w r : GoString)
    (hw : w.all p = true) : (w ++ r).dropWhile p = r.dropWhile p := by
  induction w with
  | nil => rfl
  | cons x xs ih =>
    simp only [List.all_cons, Bool.and_eq_true] at hw
    simp [List.dropWhile, hw.1, ih hw.2]

/-- A text that neither starts nor ends with white space is left as it is,
also when white space follows it. -/
theorem TrimSpace_append_spaces {s : GoString} (w : GoString)
    (hh : ∀ c, s.head? = some c → unicode.IsSpace c = false)
    (hl : ∀ c, s.getLast? = some c → unicode.IsSpace c = false)
    (hw : w.all unicode.IsSpace = true) : TrimSpace (s ++ w) = s := by
  unfold TrimSpace
  have h3 : s.reverse.dropWhile unicode.IsSpace = s.reverse :=
    dropWhile_of_head (by
      intro c hc
      rw [List.head?_reverse] at hc
      exact hl c hc)
  have hwr : w.reverse.all unicode.IsSpace = true := by
    rw [List.all_eq_true] at hw ⊢
    intro c hc
    exact hw c (List.mem_reverse.mp hc)
  cases s with
  | nil =>
    have h2 : w.dropWhile unicode.IsSpace = [] := by
      have := dropWhile_append_all w [] hw
      simpa using this
    simp [h2]
  | cons x xs =>
    have h1 : (x :: xs ++ w).dropWhile unicode.IsSpace = x :: xs ++ w :=
      dropWhile_of_head (by
        intro c hc
        exact hh c (by simpa using hc))
    rw [h1, List.reverse_append, dropWhile_append_all _ _ hwr, h3, List.reverse_reverse]

theorem TrimSpace_of_trimmed {s : GoString}
    (hh : ∀ c, s.head? = some c → unicode.IsSpace c = false)
    (hl : ∀ c, s.getLast? = some c → unicode.IsSpace c = false) : TrimSpace s = s := by
  have := TrimSpace_append_spaces [] hh hl rfl
  simpa using this

theorem Replace_idem (s : GoString) (c : Char) : Replace (Replace s c) c = Replace s c := by
  simp [Replace]

theorem not_mem_Replace (s : GoString) (c : Char) : c ∉ Replace s c := by
  simp [Replace]

end strings

/-! ## Segments of a text, and rendered numbers -/

namespace Spec

theorem before_cons_of_ne {c x : Char} (r : GoString) (h : x ≠ c) :
    before c (x :: r) = x :: before c r := by
  simp [before, h]

theorem before_append_of_not_mem {c : Char} {p : GoString} (r : GoString) (h : c ∉ p) :
    before c (p ++ r) = p ++ before c r := by
  induction p with
  | nil => rfl
  | cons x xs ih =>
    have hx : x ≠ c := fun e => h (by simp [e])
    have hxs : c ∉ xs := fun e => h (by simp [e])
    rw [List.cons_append, before_cons_of_ne _ hx, ih hxs, List.cons_append]

theorem before_mem_segments (s : GoString) : before '.' s ∈ segments s := by
  unfold segments
  by_cases h : '.' ∈ s
  · by_cases h2 : '.' ∈ after '.' s <;> simp [h, h2]
  · simp [h, before_of_not_mem h]

theorem second_mem_segments {s : GoString} (h : '.' ∈ s) :
    before '.' (after '.' s) ∈ segments s := by
  unfold segments
  by_cases h2 : '.' ∈ after '.' s
  · simp [h, h2]
  · simp [h, h2, before_of_not_mem h2]

/-- Digits followed by a `-` are not a literal. -/
theorem not_literal_append_dash {p : GoString} (u : GoString) (hne : p ≠ [])
    (hd : allDigits p = true) : isInt64Literal (p ++ '-' :: u) = false := by
  cases p with
  | nil => exact absurd rfl hne
  | cons x xs =>
    have hx : strconv.isDigit x = true := by simp [allDigits] at hd; exact hd.1
    have h1 : x ≠ '-' := by rintro rfl; exact absurd hx (by decide)
    have h2 : x ≠ '+' := by rintro rfl; exact absurd hx (by decide)
    have hnd : allDigits (x :: xs ++ '-' :: u) = false := by
      have hdash : strconv.isDigit '-' = false := by decide
      simp [allDigits, hdash]
    simp only [List.cons_append] at hnd ⊢
    simp [isInt64Literal, h1, h2, hnd]

end Spec

namespace strconv
open Spec

theorem FormatInt_isCanonical {x : Int} (h : 0 ≤ x) : isCanonical (FormatInt x) = true := by
  rw [FormatInt_of_nonneg h]
  exact FormatUint_isCanonical _

theorem decVal_FormatInt {x : Int} (h : 0 ≤ x) : (decVal (FormatInt x) : Int) = x := by
  rw [FormatInt_of_nonneg h, decVal_FormatUint]
  exact Int.toNat_of_nonneg h

theorem ParseInt_FormatInt {x : Int} (h0 : 0 ≤ x) (h1 : x < 2 ^ 63) :
    ParseInt (FormatInt x) = .ok x := by
  have hv : decVal (FormatInt x) < 2 ^ 63 := by
    have := decVal_FormatInt h0
    omega
  rw [ParseInt_canonical (FormatInt_isCanonical h0) hv, decVal_FormatInt h0]

end strconv

/-- A version with a non-negative major is not rendered as the marker. -/
theorem String_ne_marker {v : Version} (h0 : 0 ≤ v.Major) :
    v.String ≠ "%!s(INVALID_VERSION)".data := by
  obtain ⟨c, rest, hstr, hc⟩ := String_head h0
  rw [hstr]
  intro heq
  injection heq with h1 _
  subst h1
  exact absurd hc (by decide)

open Spec in
/-- Rendering a well-formed version and parsing the text gives it back. -/
theorem Parse_String_of_wellFormed {v : Version} (h : wellFormed v) :
    Parse v.String = .ok v := by
  obtain ⟨⟨hM0, hM1⟩, hm, hp, hord⟩ := h
  have hcM := strconv.FormatInt_isCanonical hM0
  have hdM := strconv.canonical_no_dot hcM
  have hneM : strconv.FormatInt v.Major ≠ [] := ((strconv.isCanonical_iff _).mp hcM).1
  rcases hm with hm | ⟨hm0, hm1⟩
  · have hp1 : v.Patch = -1 := hord hm
    rw [String_one hM0 (by omega), Parse_one hneM hdM, strconv.ParseInt_FormatInt hM0 hM1]
    cases v
    simp_all
  · have hcm := strconv.FormatInt_isCanonical hm0
    have hdm := strconv.canonical_no_dot hcm
    rcases hp with hp | ⟨hp0, hp1⟩
    · rw [String_two hM0 hm0 (by omega), Parse_two hdM hdm,
        strconv.ParseInt_FormatInt hM0 hM1, strconv.ParseInt_FormatInt hm0 hm1]
      cases v
      simp_all
    · have hcp := strconv.FormatInt_isCanonical hp0
      rw [String_three hM0 hm0 hp0, List.append_assoc, List.cons_append,
        Parse_three _ hdM hdm,
        strconv.ParseInt_FormatInt hM0 hM1, strconv.ParseInt_FormatInt hm0 hm1,
        before_of_not_mem (strconv.canonical_no_dash hcp), strconv.ParseInt_FormatInt hp0 hp1]

open Spec in
/-- An accepted text whose second segment has no minus sign has an absent
patch or a minor that is not negative. -/
theorem Parse_minor_unsigned {s : GoString} {v : Version} (h : Parse s = .ok v)
    (hminor : ((segments s).getD 1 []).head? ≠ some '-') :
    v.Patch = -1 ∨ 0 ≤ v.Minor := by
  obtain ⟨_, rfl⟩ := Parse_ok_segments h
  rcases segments_cases s with ⟨_, _, hseg⟩ | ⟨p, r, _, _, _, _, hseg⟩ |
      ⟨p, q, r, _, _, _, _, hseg⟩
  · rw [hseg]; left; simp [versionOfSegments]
  · rw [hseg]; left; simp [versionOfSegments]
  · rw [hseg] at hminor ⊢
    right
    have : 0 ≤ litValue q := strconv.litValue_nonneg (by simpa using hminor)
    simpa [versionOfSegments] using this

theorem wrapInt64_succ_ne_neg_one {x : Int} (h0 : 0 ≤ x) (h1 : x ≤ maxInt64) :
    wrapInt64 (x + 1) ≠ -1 := by
  unfold maxInt64 at h1
  unfold wrapInt64
  norm_num at h1 ⊢
  omega

/-! ## The claims, continued -/

open Spec

/-- C11, counterexample: `Parse` accepts the text `1.-1.3` with the minor `-1`,
the absent sentinel, and the patch `3`. -/
theorem C11_field_order_counterexample :
    Parse "1.-1.3".data = .ok { Major := 1, Minor := -1, Patch := 3 } ∧
    ¬ fieldOrder { Major := 1, Minor := -1, Patch := 3 } := by
  decide

/-- C11, amended: for every text `s` that `Parse` accepts and whose second
segment, if there is one, has no minus sign, the parsed version has no patch
without a minor, and neither has the version after one `changeVersion` step
with bump type `major` or `minor`, or with bump type `patch` when the minor is
present. -/
theorem C11_field_order (s : GoString) (v : Version) (h : Parse s = .ok v)
    (hminor : ((segments s).getD 1 []).head? ≠ some '-') :
    fieldOrder v ∧
    (∃ w, changeVersion Major s = .ok w ∧ fieldOrder w) ∧
    (∃ w, changeVersion Minor s = .ok w ∧ fieldOrder w) ∧
    (v.Minor ≠ -1 → ∃ w, changeVersion Patch s = .ok w ∧ fieldOrder w) := by
  have hdisj := Parse_minor_unsigned h hminor
  obtain ⟨_, ⟨_, hmhi⟩, _⟩ := Parse_range h
  have hMm : Minor ≠ Major := by decide
  have hPM : Patch ≠ Major := by decide
  have hPm : Patch ≠ Minor := by decide
  refine ⟨?_, ?_, ?_, ?_⟩
  · intro hm
    rcases hdisj with hp | hp
    · exact hp
    · omega
  · refine ⟨_, by rw [changeVersion_of_ok Major h, if_pos rfl], ?_⟩
    intro hm
    simp only at hm ⊢
    by_cases hm1 : v.Minor = -1
    · rcases hdisj with hp | hp
      · simp [hp]
      · omega
    · simp [hm1] at hm
  · refine ⟨_, by rw [changeVersion_of_ok Minor h, if_neg hMm, if_pos rfl], ?_⟩
    intro hm
    simp only at hm ⊢
    rcases hdisj with hp | hp
    · simp [hp]
    · have hne : v.Minor ≠ -1 := by omega
      simp only [hne, if_false] at hm
      exact absurd hm (wrapInt64_succ_ne_neg_one hp hmhi)
  · intro hne
    refine ⟨_, by rw [changeVersion_of_ok Patch h, if_neg hPM, if_neg hPm, if_pos rfl], ?_⟩
    intro hm
    exact absurd hm hne

/-- Witness of the amended C11 at the text `1.2`. -/
theorem C11_field_order_witness :
    Parse "1.2".data = .ok { Major := 1, Minor := 2, Patch := -1 } ∧
    fieldOrder { Major := 1, Minor := 2, Patch := -1 } ∧
    (∃ w, changeVersion Major "1.2".data = .ok w ∧ fieldOrder w) ∧
    (∃ w, changeVersion Minor "1.2".data = .ok w ∧ fieldOrder w) ∧
    ((2 : Int) ≠ -1 → ∃ w, changeVersion Patch "1.2".data = .ok w ∧ fieldOrder w) :=
  ⟨by decide,
    C11_field_order "1.2".data { Major := 1, Minor := 2, Patch := -1 } (by decide)
      (by decide)⟩

/-- C12: started with nothing written, `handleResult` writes exactly the
rendered version to standard output and nothing to standard error when the
computation succeeds, and exactly the message of the error to standard error
and nothing to standard output when it fails; no newline is added. -/
theorem C12_handleResult_exclusive (quote : GoString → GoString)
    (fn : Unit → Except Error Version) :
    handleResult quote fn { stdout := [], stderr := [] } =
      match fn () with
      | .ok v => { stdout := v.String, stderr := [] }
      | .error e => { stdout := [], stderr := Error.Error quote e } := by
  unfold handleResult
  cases fn () with
  | error e => simp
  | ok v => simp

/-- C13: for every text `s`, empty or not, `Parse` never returns the error
`Invalid version string: …`; splitting at `.` with the limit 3 always gives
one, two or three parts. -/
theorem C13_invalid_string_unreachable (s : GoString) :
    (∀ t, Parse s ≠ .error (.invalidVersionString t)) ∧
    1 ≤ (strings.SplitN s '.' 3).length ∧ (strings.SplitN s '.' 3).length ≤ 3 := by
  refine ⟨?_, SplitN_three_length s⟩
  intro t ht
  rcases Parse_error_kind ht with ⟨_, h⟩ | ⟨_, num, k, h⟩ <;> cases h

/-- C14, counterexample: with the text `1.2.3` followed by a line feed, the
one-argument path (the file holds the text) bumps the patch to `1.2.4`, while
the two-argument path (the text is the argument) fails: it does not trim. -/
theorem C14_paths_agree_counterexample :
    changeVersionInFile (fun _ => .ok ("1.2.3".data ++ [Char.ofNat 10])) Patch =
      .ok { Major := 1, Minor := 2, Patch := 4 } ∧
    changeVersion Patch ("1.2.3".data ++ [Char.ofNat 10]) =
      .error (.numError ("3".data ++ [Char.ofNat 10]) .ErrSyntax) ∧
    changeVersion Patch ("1.2.3".data ++ [Char.ofNat 10]) ≠
      changeVersionInFile (fun _ => .ok ("1.2.3".data ++ [Char.ofNat 10])) Patch := by
  decide

/-- C14, amended: for every bump type `f` and every text `s`, the one-argument
path on a `VERSION` file with the content `s` gives the result of the
two-argument path on `s` with its leading and trailing white space removed;
the two paths give the same result when `s` neither starts nor ends with
white space. Both strip the quotes, only the one-argument path trims. -/
theorem C14_paths_agree (files : Files) (f : VersionType) (s : GoString)
    (hfile : files VERSION_FILE_LOCATION = .ok s) :
    changeVersionInFile files f = changeVersion f (strings.TrimSpace s) ∧
    ((∀ c, s.head? = some c → unicode.IsSpace c = false) →
      (∀ c, s.getLast? = some c → unicode.IsSpace c = false) →
      changeVersionInFile files f = changeVersion f s) := by
  have h1 : changeVersionInFile files f = changeVersion f (strings.TrimSpace s) := by
    unfold changeVersionInFile
    rw [hfile]
  refine ⟨h1, fun hh hl => ?_⟩
  rw [h1, strings.TrimSpace_of_trimmed hh hl]

/-- Witness of the amended C14 at a file that holds `"1.2.3"`, quotes included. -/
theorem C14_paths_agree_witness :
    changeVersionInFile (fun _ => .ok "\"1.2.3\"".data) Minor =
      changeVersion Minor (strings.TrimSpace "\"1.2.3\"".data) ∧
    changeVersionInFile (fun _ => .ok "\"1.2.3\"".data) Minor =
      changeVersion Minor "\"1.2.3\"".data :=
  ⟨(C14_paths_agree (fun _ => .ok "\"1.2.3\"".data) Minor "\"1.2.3\"".data rfl).1,
    (C14_paths_agree (fun _ => .ok "\"1.2.3\"".data) Minor "\"1.2.3\"".data rfl).2
      (by decide) (by decide)⟩

/-- C15: for every bump type `f`, every text `s` without leading or trailing
white space, and every white space `w`, a `VERSION` file with the content
`"s"w` or `sw` gives the result of `changeVersion f s` (whether or not `s`
has a quote of its own); an error of the file read is returned as it is. -/
theorem C15_file_normalisation (f : VersionType) (s w : GoString)
    (hh : ∀ c, s.head? = some c → unicode.IsSpace c = false)
    (hl : ∀ c, s.getLast? = some c → unicode.IsSpace c = false)
    (hw : w.all unicode.IsSpace = true) :
    (∀ files : Files, files VERSION_FILE_LOCATION = .ok ('"' :: s ++ '"' :: w) →
      changeVersionInFile files f = changeVersion f s) ∧
    (∀ files : Files, files VERSION_FILE_LOCATION = .ok (s ++ w) →
      changeVersionInFile files f = changeVersion f s) ∧
    (∀ (files : Files) (e : Error), files VERSION_FILE_LOCATION = .error e →
      changeVersionInFile files f = .error e) := by
  refine ⟨fun files hfile => ?_, fun files hfile => ?_, fun files e hfile => ?_⟩
  · unfold changeVersionInFile
    rw [hfile]
    have hsq : unicode.IsSpace '"' = false := by decide
    have htrim : strings.TrimSpace ('"' :: s ++ '"' :: w) = '"' :: s ++ ['"'] := by
      have := strings.TrimSpace_append_spaces (s := '"' :: s ++ ['"']) w
        (by intro c hc; simp at hc; subst hc; exact hsq)
        (by
          intro c hc
          rw [List.getLast?_concat] at hc
          injection hc with hc
          subst hc
          exact hsq) hw
      simpa using this
    simp only [htrim]
    unfold changeVersion
    have hrep : strings.Replace ('"' :: s ++ ['"']) '"' = strings.Replace s '"' := by
      simp [strings.Replace]
    simp only [hrep]
  · unfold changeVersionInFile
    rw [hfile]
    simp only [strings.TrimSpace_append_spaces w hh hl hw]
  · unfold changeVersionInFile
    rw [hfile]

/-- Witness of C15 at the text `1.2.3`, followed in the file by a space and a
line feed, and at a file that cannot be read. -/
theorem C15_file_normalisation_witness :
    changeVersionInFile (fun _ => .ok ('"' :: "1.2.3".data ++ '"' :: [' ', Char.ofNat 10]))
      Patch = changeVersion Patch "1.2.3".data ∧
    changeVersionInFile (fun _ => .ok ("1.2.3".data ++ [' ', Char.ofNat 10])) Patch =
      changeVersion Patch "1.2.3".data ∧
    changeVersionInFile (fun _ => .error (.readFile "open VERSION".data)) Patch =
      .error (.readFile "open VERSION".data) :=
  ⟨(C15_file_normalisation Patch "1.2.3".data [' ', Char.ofNat 10]
      (by decide) (by decide) (by decide)).1 _ rfl,
    (C15_file_normalisation Patch "1.2.3".data [' ', Char.ofNat 10]
      (by decide) (by decide) (by decide)).2.1 _ rfl,
    (C15_file_normalisation Patch "1.2.3".data [' ', Char.ofNat 10]
      (by decide) (by decide) (by decide)).2.2 _ _ rfl⟩

/-- C16: for every bump type `f` and every text `s`, `changeVersion f s` is
`changeVersion f` of `s` with every quote removed, wherever the quotes stand;
the text without quotes has no quote left, and removing the quotes again does
not change it. -/
theorem C16_quote_stripping (f : VersionType) (s : GoString) :
    changeVersion f s = changeVersion f (strings.Replace s '"') ∧
    '"' ∉ strings.Replace s '"' ∧
    strings.Replace (strings.Replace s '"') '"' = strings.Replace s '"' := by
  refine ⟨?_, strings.not_mem_Replace s '"', strings.Replace_idem s '"'⟩
  unfold changeVersion
  simp only [strings.Replace_idem]

/-- C17: for canonical decimals `sa`, `sb` and every text `t`, `Parse` returns
a `NumError` on `a-t` and on `a.b-t`: a `-` suffix after the first or the
second number is not discarded. -/
theorem C17_suffix_third_only (sa sb t : GoString)
    (ha : isCanonical sa = true) (hb : isCanonical sb = true) :
    (∃ num k, Parse (sa ++ '-' :: t) = .error (.numError num k)) ∧
    (∃ num k, Parse (sa ++ '.' :: (sb ++ '-' :: t)) = .error (.numError num k)) := by
  obtain ⟨hnea, hda, _⟩ := (strconv.isCanonical_iff sa).mp ha
  obtain ⟨hneb, hdb, _⟩ := (strconv.isCanonical_iff sb).mp hb
  have hdota := strconv.canonical_no_dot ha
  have hdotb := strconv.canonical_no_dot hb
  have hdd : ('-' : Char) ≠ '.' := by decide
  have key : ∀ s : GoString, s ≠ [] → (∃ p ∈ segments s, isInt64Literal p = false) →
      ∃ num k, Parse s = .error (.numError num k) := by
    intro s hne hex
    obtain ⟨e, he⟩ := (Parse_segments hne).2 hex
    rcases Parse_error_kind he with ⟨h0, _⟩ | ⟨_, num, k, hk⟩
    · exact absurd h0 hne
    · exact ⟨num, k, by rw [he, hk]⟩
  constructor
  · apply key _ (by simp)
    refine ⟨_, before_mem_segments _, ?_⟩
    rw [before_append_of_not_mem _ hdota, before_cons_of_ne _ hdd]
    exact not_literal_append_dash _ hnea hda
  · apply key _ (by simp)
    refine ⟨_, second_mem_segments (by simp), ?_⟩
    rw [after_append _ hdota, before_append_of_not_mem _ hdotb, before_cons_of_ne _ hdd]
    exact not_literal_append_dash _ hneb hdb

/-- Witness of C17 at the texts `1-beta.2` and `1.2-beta.2`. -/
theorem C17_suffix_third_only_witness :
    (∃ num k, Parse ("1".data ++ '-' :: "beta.2".data) = .error (.numError num k)) ∧
    (∃ num k, Parse ("1".data ++ '.' :: ("2".data ++ '-' :: "beta.2".data)) =
      .error (.numError num k)) :=
  C17_suffix_third_only "1".data "2".data "beta.2".data (by decide) (by decide)

/-- A non-negative major is rendered first. -/
theorem String_major_first {v : Version} (h0 : 0 ≤ v.Major) :
    ∃ rest, v.String = strconv.FormatInt v.Major ++ rest := by
  by_cases h1 : 0 ≤ v.Minor
  · by_cases h2 : 0 ≤ v.Patch
    · exact ⟨_, by rw [String_three h0 h1 h2, List.append_assoc]⟩
    · exact ⟨_, String_two h0 h1 (by omega)⟩
  · exact ⟨[], by rw [String_one h0 (by omega), List.append_nil]⟩

/-- A non-negative minor after a non-negative major is rendered second. -/
theorem String_minor_second {v : Version} (h0 : 0 ≤ v.Major) (h1 : 0 ≤ v.Minor) :
    ∃ rest, v.String =
      strconv.FormatInt v.Major ++ '.' :: strconv.FormatInt v.Minor ++ rest := by
  by_cases h2 : 0 ≤ v.Patch
  · exact ⟨_, String_three h0 h1 h2⟩
  · exact ⟨[], by rw [String_two h0 h1 (by omega), List.append_nil]⟩

/-- C18, the code at the failing input: the patch bump of the text `1` gives
the version with major 1, no minor and patch 1, which is rendered as `1`,
the same text as before the bump. -/
theorem C18_patch_bump_of_major_only :
    Parse "1".data = .ok { Major := 1, Minor := -1, Patch := -1 } ∧
    changeVersion Patch "1".data = .ok { Major := 1, Minor := -1, Patch := 1 } ∧
    Version.String { Major := 1, Minor := -1, Patch := 1 } = "1".data ∧
    Version.String { Major := 1, Minor := -1, Patch := -1 } = "1".data := by
  decide

/-- C19: for every version with the major in `[0, 2^63)`, the minor and the
patch each `-1` or in `[0, 2^63)`, and no patch without a minor, `Parse` of
the rendered version succeeds and returns the version itself. -/
theorem C19_Parse_inverts_String (v : Version) (h : wellFormed v) :
    Parse v.String = .ok v :=
  Parse_String_of_wellFormed h

/-- Witness of C19 at the version `4.0` (no patch). -/
theorem C19_Parse_inverts_String_witness :
    Parse (Version.String { Major := 4, Minor := 0, Patch := -1 }) =
      .ok { Major := 4, Minor := 0, Patch := -1 } :=
  C19_Parse_inverts_String { Major := 4, Minor := 0, Patch := -1 }
    ⟨⟨by decide, by decide⟩, Or.inr ⟨by decide, by decide⟩, Or.inl rfl,
      fun h => absurd h (by decide)⟩

/-- C20, counterexample: the major bump of the largest int64 wraps to the
smallest one, which is negative, and the result is rendered as the marker. -/
theorem C20_no_overflow_counterexample :
    Parse "9223372036854775807".data =
      .ok { Major := 9223372036854775807, Minor := -1, Patch := -1 } ∧
    changeVersion Major "9223372036854775807".data =
      .ok { Major := -9223372036854775808, Minor := -1, Patch := -1 } ∧
    ¬ (0 ≤ bumpedField Major { Major := -9223372036854775808, Minor := -1, Patch := -1 }) ∧
    Version.String { Major := -9223372036854775808, Minor := -1, Patch := -1 } =
      "%!s(INVALID_VERSION)".data := by
  decide

/-- C20, amended: for every text `s` that `Parse` accepts with present fields
that are not negative, and every bump type `f` among `major`, `minor` and
`patch` whose field is below the int64 maximum, `changeVersion f s` succeeds,
its bumped field is positive and it is not rendered as the marker; the major
is rendered after a major bump, the minor after a minor bump, and the patch
after a patch bump of a version with a minor. -/
theorem C20_no_overflow (s : GoString) (v : Version) (f : VersionType)
    (h : Parse s = .ok v) (hpres : 0 ≤ v.Major ∧ -1 ≤ v.Minor ∧ -1 ≤ v.Patch)
    (hf : f = Major ∨ f = Minor ∨ f = Patch) (hmax : bumpedField f v < maxInt64) :
    ∃ w, changeVersion f s = .ok w ∧ 0 < bumpedField f w ∧
      w.String ≠ "%!s(INVALID_VERSION)".data ∧
      (f = Major → ∃ rest, w.String = strconv.FormatInt w.Major ++ rest) ∧
      (f = Minor → ∃ rest, w.String =
        strconv.FormatInt w.Major ++ '.' :: strconv.FormatInt w.Minor ++ rest) ∧
      (f = Patch → v.Minor ≠ -1 → w.String =
        strconv.FormatInt w.Major ++ '.' :: strconv.FormatInt w.Minor
          ++ '.' :: strconv.FormatInt w.Patch) := by
  obtain ⟨hM0, hm0, hp0⟩ := hpres
  have hMm : Minor ≠ Major := by decide
  have hPM : Patch ≠ Major := by decide
  have hPm : Patch ≠ Minor := by decide
  have hmin : minInt64 ≤ (0 : Int) := by decide
  have h1 : wrapInt64 1 = 1 := by decide
  rcases hf with rfl | rfl | rfl
  · simp only [bumpedField, if_true] at hmax
    have hw : wrapInt64 (v.Major + 1) = v.Major + 1 :=
      wrapInt64_of_range (by omega) (by omega)
    refine ⟨_, by rw [changeVersion_of_ok Major h, if_pos rfl], ?_, ?_, ?_, ?_, ?_⟩
    · simp only [bumpedField, if_true, hw]; omega
    · exact String_ne_marker (by simp only [hw]; omega)
    · intro _; exact String_major_first (by simp only [hw]; omega)
    · intro hc; exact absurd hc.symm hMm
    · intro hc; exact absurd hc.symm hPM
  · simp only [bumpedField, hMm, if_true, if_false] at hmax
    have hw : 0 < wrapInt64 ((if v.Minor = -1 then 0 else v.Minor) + 1) := by
      by_cases hm : v.Minor = -1
      · simp [hm, h1]
      · simp only [hm, if_false]
        rw [wrapInt64_of_range (by omega) (by omega)]
        omega
    refine ⟨_, by rw [changeVersion_of_ok Minor h, if_neg hMm, if_pos rfl], ?_, ?_, ?_, ?_, ?_⟩
    · simp only [bumpedField, hMm, if_true, if_false]; exact hw
    · exact String_ne_marker hM0
    · intro hc; exact absurd hc hMm
    · intro _; exact String_minor_second hM0 (le_of_lt hw)
    · intro hc; exact absurd hc.symm hPm
  · simp only [bumpedField, hPM, hPm, if_false] at hmax
    have hw : 0 < wrapInt64 ((if v.Patch = -1 then 0 else v.Patch) + 1) := by
      by_cases hp : v.Patch = -1
      · simp [hp, h1]
      · simp only [hp, if_false]
        rw [wrapInt64_of_range (by omega) (by omega)]
        omega
    refine ⟨_, by rw [changeVersion_of_ok Patch h, if_neg hPM, if_neg hPm, if_pos rfl],
      ?_, ?_, ?_, ?_, ?_⟩
    · simp only [bumpedField, hPM, hPm, if_false]; exact hw
    · exact String_ne_marker hM0
    · intro hc; exact absurd hc hPM
    · intro hc; exact absurd hc hPm
    · intro _ hne
      exact String_three hM0 (by simp only; omega) (le_of_lt hw)

/-- Witness of the amended C20 at the text `1.2` and the bump type `minor`. -/
theorem C20_no_overflow_witness :
    ∃ w, changeVersion Minor "1.2".data = .ok w ∧ 0 < bumpedField Minor w ∧
      w.String ≠ "%!s(INVALID_VERSION)".data ∧
      (Minor = Major → ∃ rest, w.String = strconv.FormatInt w.Major ++ rest) ∧
      (Minor = Minor → ∃ rest, w.String =
        strconv.FormatInt w.Major ++ '.' :: strconv.FormatInt w.Minor ++ rest) ∧
      (Minor = Patch → (2 : Int) ≠ -1 → w.String =
        strconv.FormatInt w.Major ++ '.' :: strconv.FormatInt w.Minor
          ++ '.' :: strconv.FormatInt w.Patch) :=
  C20_no_overflow "1.2".data { Major := 1, Minor := 2, Patch := -1 } Minor (by decide)
    (by decide) (by decide) (by decide)

end BumpVersion

